import Mathlib

/-!
# Verification of the sp1-utreexo accumulator core

A shallow embedding, in Lean 4, of the core data structures and algorithms of
the sp1-utreexo repository:

* the node-hash primitive (`rustreexo/src/accumulator/node_hash.rs`),
* the full in-memory Pollard accumulator (`rustreexo/src/accumulator/pollard.rs`),
* node / accumulator byte serialisation,
* the UTXO leaf fingerprint (`circuit/program/utreexo/src/btc_structs.rs` and
  `input-generator/src/main.rs`),
* the service state machine (`accumulator-service/src/state_machine.rs`),
* the snapshot dump / restore / update filesystem logic
  (`accumulator-service/src/state_machine.rs`, `accumulator-service/src/updater.rs`),
* a model of the pruned accumulator and full forest used by
  `accumulator-service/src/pollard.rs` and `script_utils.rs` (the defining crate
  code, `mem_forest.rs` and the generic pruned `pollard.rs` of upstream
  rustreexo, is not part of the repository snapshot; those parts are modelled
  from the specification, as marked in their doc comments).

Bytes are modelled as natural numbers (byte streams as `List Nat`, each entry
`< 256` in every stream the programs produce); machine integers are `Nat` with
explicit reduction `% 2^w` where overflow matters.  The SHA-256 and
SHA-512/256 digests used by the code are implemented concretely so that all
witnesses and counterexamples evaluate by `decide`.
-/

set_option maxRecDepth 10000

/-! ## Byte helpers -/

/-- Little-endian 4-byte encoding of a 32-bit value (`u32::to_le_bytes`). -/
def le4 (n : Nat) : List Nat :=
  [n % 256, n / 256 % 256, n / 65536 % 256, n / 16777216 % 256]

/-- Little-endian 8-byte encoding of a 64-bit value (`u64::to_le_bytes`). -/
def le8 (n : Nat) : List Nat :=
  le4 (n % 4294967296) ++ le4 (n / 4294967296 % 4294967296)

/-- Big-endian 4-byte encoding of a 32-bit value. -/
def be4 (n : Nat) : List Nat :=
  [n / 16777216 % 256, n / 65536 % 256, n / 256 % 256, n % 256]

/-- Big-endian 8-byte encoding of a 64-bit value. -/
def be8 (n : Nat) : List Nat :=
  be4 (n / 4294967296) ++ be4 (n % 4294967296)

/-- Decode 8 little-endian bytes to a value (`u64::from_le_bytes`). -/
def leVal (bs : List Nat) : Nat :=
  bs.foldr (fun b acc => b + 256 * acc) 0

/-- Split a list into chunks of `sz` elements (fuel-driven so that it reduces
in the kernel). -/
def chunksAux (sz : Nat) : Nat → List Nat → List (List Nat)
  | 0, _ => []
  | _, [] => []
  | fuel + 1, l => l.take sz :: chunksAux sz fuel (l.drop sz)

def chunks (sz : Nat) (l : List Nat) : List (List Nat) :=
  chunksAux sz l.length l

/-! ## SHA-256 (the digest behind `BitcoinNodeHash::parent_hash`) -/

namespace Sha256

def w32 : Nat := 4294967296

def rotr (n x : Nat) : Nat := ((x >>> n) ||| (x <<< (32 - n))) % w32

def bnot (x : Nat) : Nat := (w32 - 1) ^^^ x

def bigS0 (x : Nat) : Nat := rotr 2 x ^^^ rotr 13 x ^^^ rotr 22 x
def bigS1 (x : Nat) : Nat := rotr 6 x ^^^ rotr 11 x ^^^ rotr 25 x
def smallS0 (x : Nat) : Nat := rotr 7 x ^^^ rotr 18 x ^^^ (x >>> 3)
def smallS1 (x : Nat) : Nat := rotr 17 x ^^^ rotr 19 x ^^^ (x >>> 10)

def ch (x y z : Nat) : Nat := (x &&& y) ^^^ (bnot x &&& z)
def maj (x y z : Nat) : Nat := (x &&& y) ^^^ (x &&& z) ^^^ (y &&& z)

def K : List Nat :=
  [1116352408, 1899447441, 3049323471, 3921009573, 961987163, 1508970993,
   2453635748, 2870763221, 3624381080, 310598401, 607225278, 1426881987,
   1925078388, 2162078206, 2614888103, 3248222580, 3835390401, 4022224774,
   264347078, 604807628, 770255983, 1249150122, 1555081692, 1996064986,
   2554220882, 2821834349, 2952996808, 3210313671, 3336571891, 3584528711,
   113926993, 338241895, 666307205, 773529912, 1294757372, 1396182291,
   1695183700, 1986661051, 2177026350, 2456956037, 2730485921, 2820302411,
   3259730800, 3345764771, 3516065817, 3600352804, 4094571909, 275423344,
   430227734, 506948616, 659060556, 883997877, 958139571, 1322822218,
   1537002063, 1747873779, 1955562222, 2024104815, 2227730452, 2361852424,
   2428436474, 2756734187, 3204031479, 3329325298]

def H0 : List Nat :=
  [1779033703, 3144134277, 1013904242, 2773480762, 1359893119, 2600822924,
   528734635, 1541459225]

/-- Group a byte list into big-endian 32-bit words. -/
def toWords : List Nat → List Nat
  | a :: b :: c :: d :: rest => (((a * 256 + b) * 256 + c) * 256 + d) :: toWords rest
  | _ => []

/-- SHA-256 message padding. -/
def pad (msg : List Nat) : List Nat :=
  let L := msg.length
  msg ++ [128] ++ List.replicate ((64 - (L + 9) % 64) % 64) 0 ++ be8 (8 * L)

/-- One message-schedule step, on the reversed word list. -/
def schedStep (rws : List Nat) : Nat :=
  (smallS1 (rws.getD 1 0) + rws.getD 6 0 + smallS0 (rws.getD 14 0) + rws.getD 15 0) % w32

def schedRec : Nat → List Nat → List Nat
  | 0, rws => rws
  | k + 1, rws => schedRec k (schedStep rws :: rws)

/-- The 64 schedule words of one block. -/
def schedWords (block : List Nat) : List Nat :=
  (schedRec 48 (toWords block).reverse).reverse

def compressStep (st : List Nat) (kw : Nat × Nat) : List Nat :=
  match st with
  | [a, b, c, d, e, f, g, h] =>
    let t1 := (h + bigS1 e + ch e f g + kw.1 + kw.2) % w32
    let t2 := (bigS0 a + maj a b c) % w32
    [(t1 + t2) % w32, a, b, c, (d + t1) % w32, e, f, g]
  | st => st

def compressBlock (H : List Nat) (block : List Nat) : List Nat :=
  let st := (K.zip (schedWords block)).foldl compressStep H
  (H.zip st).map (fun p => (p.1 + p.2) % w32)

end Sha256

/-- SHA-256 of a byte list, as 32 bytes. -/
def sha256 (msg : List Nat) : List Nat :=
  ((chunks 64 (Sha256.pad msg)).foldl Sha256.compressBlock Sha256.H0).map be4 |>.flatten

/-! ## SHA-512 / SHA-512-256 (the digest behind `LeafData::get_leaf_hashes`) -/

namespace Sha512

def w64 : Nat := 18446744073709551616

def rotr (n x : Nat) : Nat := ((x >>> n) ||| (x <<< (64 - n))) % w64

def bnot (x : Nat) : Nat := (w64 - 1) ^^^ x

def bigS0 (x : Nat) : Nat := rotr 28 x ^^^ rotr 34 x ^^^ rotr 39 x
def bigS1 (x : Nat) : Nat := rotr 14 x ^^^ rotr 18 x ^^^ rotr 41 x
def smallS0 (x : Nat) : Nat := rotr 1 x ^^^ rotr 8 x ^^^ (x >>> 7)
def smallS1 (x : Nat) : Nat := rotr 19 x ^^^ rotr 61 x ^^^ (x >>> 6)

def ch (x y z : Nat) : Nat := (x &&& y) ^^^ (bnot x &&& z)
def maj (x y z : Nat) : Nat := (x &&& y) ^^^ (x &&& z) ^^^ (y &&& z)

def K : List Nat :=
  [4794697086780616226, 8158064640168781261, 13096744586834688815,
   16840607885511220156, 4131703408338449720, 6480981068601479193,
   10538285296894168987, 12329834152419229976, 15566598209576043074,
   1334009975649890238, 2608012711638119052, 6128411473006802146,
   8268148722764581231, 9286055187155687089, 11230858885718282805,
   13951009754708518548, 16472876342353939154, 17275323862435702243,
   1135362057144423861, 2597628984639134821, 3308224258029322869,
   5365058923640841347, 6679025012923562964, 8573033837759648693,
   10970295158949994411, 12119686244451234320, 12683024718118986047,
   13788192230050041572, 14330467153632333762, 15395433587784984357,
   489312712824947311, 1452737877330783856, 2861767655752347644,
   3322285676063803686, 5560940570517711597, 5996557281743188959,
   7280758554555802590, 8532644243296465576, 9350256976987008742,
   10552545826968843579, 11727347734174303076, 12113106623233404929,
   14000437183269869457, 14369950271660146224, 15101387698204529176,
   15463397548674623760, 17586052441742319658, 1182934255886127544,
   1847814050463011016, 2177327727835720531, 2830643537854262169,
   3796741975233480872, 4115178125766777443, 5681478168544905931,
   6601373596472566643, 7507060721942968483, 8399075790359081724,
   8693463985226723168, 9568029438360202098, 10144078919501101548,
   10430055236837252648, 11840083180663258601, 13761210420658862357,
   14299343276471374635, 14566680578165727644, 15097957966210449927,
   16922976911328602910, 17689382322260857208, 500013540394364858,
   748580250866718886, 1242879168328830382, 1977374033974150939,
   2944078676154940804, 3659926193048069267, 4368137639120453308,
   4836135668995329356, 5532061633213252278, 6448918945643986474,
   6902733635092675308, 7801388544844847127]

/-- The SHA-512/256 initial state (FIPS 180-4). -/
def IV512x256 : List Nat :=
  [2463787394917988140, 11481187982095705282, 2563595384472711505,
   10824532655140301501, 10819967247969091555, 13717434660681038226,
   3098927326965381290, 1060366662362279074]

/-- Group a byte list into big-endian 64-bit words. -/
def toWords : List Nat → List Nat
  | a :: b :: c :: d :: e :: f :: g :: h :: rest =>
    (((((((a * 256 + b) * 256 + c) * 256 + d) * 256 + e) * 256 + f) * 256 + g) * 256 + h)
      :: toWords rest
  | _ => []

/-- SHA-512 message padding (128-bit length field; message lengths in this
development are far below `2^61` bytes). -/
def pad (msg : List Nat) : List Nat :=
  let L := msg.length
  msg ++ [128] ++ List.replicate ((128 - (L + 17) % 128) % 128) 0 ++
    List.replicate 8 0 ++ be8 (8 * L)

def schedStep (rws : List Nat) : Nat :=
  (smallS1 (rws.getD 1 0) + rws.getD 6 0 + smallS0 (rws.getD 14 0) + rws.getD 15 0) % w64

def schedRec : Nat → List Nat → List Nat
  | 0, rws => rws
  | k + 1, rws => schedRec k (schedStep rws :: rws)

def schedWords (block : List Nat) : List Nat :=
  (schedRec 64 (toWords block).reverse).reverse

def compressStep (st : List Nat) (kw : Nat × Nat) : List Nat :=
  match st with
  | [a, b, c, d, e, f, g, h] =>
    let t1 := (h + bigS1 e + ch e f g + kw.1 + kw.2) % w64
    let t2 := (bigS0 a + maj a b c) % w64
    [(t1 + t2) % w64, a, b, c, (d + t1) % w64, e, f, g]
  | st => st

def compressBlock (H : List Nat) (block : List Nat) : List Nat :=
  let st := (K.zip (schedWords block)).foldl compressStep H
  (H.zip st).map (fun p => (p.1 + p.2) % w64)

/-- Big-endian 8-byte rendering of a 64-bit word. -/
def wordBytes (n : Nat) : List Nat :=
  be4 (n / 4294967296) ++ be4 (n % 4294967296)

end Sha512

/-- SHA-512/256 of a byte list: the SHA-512 compression with the dedicated
initial state, truncated to the first 32 bytes (`sha2::Sha512_256`). -/
def sha512x256 (msg : List Nat) : List Nat :=
  (((chunks 128 (Sha512.pad msg)).foldl Sha512.compressBlock Sha512.IV512x256).map
    Sha512.wordBytes).flatten.take 32

/-! ## The node-hash primitive: `BitcoinNodeHash`

From `rustreexo/src/accumulator/node_hash.rs`.  The Rust enum has variants
`Empty`, `Placeholder` and `Some([u8; 32])`; the last is called `value` here
(`some` would shadow `Option.some`). -/

inductive BitcoinNodeHash
  | empty
  | placeholder
  | value (inner : List Nat)
deriving DecidableEq, Repr

/-- The all-zero 32-byte array. -/
def zeros32 : List Nat := List.replicate 32 0

namespace BitcoinNodeHash

/-- `impl Deref for BitcoinNodeHash`: a `Some` dereferences to its payload,
`Empty` and `Placeholder` dereference to 32 zero bytes. -/
def deref : BitcoinNodeHash → List Nat
  | .value inner => inner
  | _ => zeros32

/-- `BitcoinNodeHash::is_empty`. -/
def is_empty : BitcoinNodeHash → Bool
  | .empty => true
  | _ => false

/-- `BitcoinNodeHash::new`. -/
def new (inner : List Nat) : BitcoinNodeHash := .value inner

/-- `BitcoinNodeHash::parent_hash`: SHA-256 of the two dereferenced payloads
concatenated (the live code hashes with `sha2::Sha256`; a `sha512_256` variant
is present only as a comment). -/
def parent_hash (left right : BitcoinNodeHash) : BitcoinNodeHash :=
  .value (sha256 (left.deref ++ right.deref))

/-- Lexicographic comparison of byte lists (the derived `Ord` on `[u8; 32]`). -/
def listLt : List Nat → List Nat → Bool
  | [], [] => false
  | [], _ :: _ => true
  | _ :: _, [] => false
  | a :: as_, b :: bs => if a < b then true else if b < a then false else listLt as_ bs

/-- The derived `Ord` on the Rust enum: `Empty < Placeholder < Some`, payloads
compared lexicographically. -/
def hlt : BitcoinNodeHash → BitcoinNodeHash → Bool
  | .empty, .empty => false
  | .empty, _ => true
  | .placeholder, .empty => false
  | .placeholder, .placeholder => false
  | .placeholder, .value _ => true
  | .value a, .value b => listLt a b
  | .value _, _ => false

end BitcoinNodeHash


/-! ## Node-hash byte serialisation (`BitcoinNodeHash::write` / `::read`) -/

/-- Error kinds of the embedded I/O paths.  `eof` models
`std::io::ErrorKind::UnexpectedEof` (short reads), `corrupt` models the
`InvalidData` error returned for an unknown tag, and `panicked` models a Rust
`panic!` (an abort, not an error value handed to the caller). -/
inductive IoErr
  | eof
  | corrupt
  | panicked
  | notFound
deriving DecidableEq, Repr

namespace BitcoinNodeHash

/-- `BitcoinNodeHash::write`: 1-byte tag, then the 32-byte payload for `Some`. -/
def write : BitcoinNodeHash → List Nat
  | .empty => [0]
  | .placeholder => [1]
  | .value inner => 2 :: inner

/-- `BitcoinNodeHash::read`: tag 0 is `Empty`, 1 is `Placeholder`, 2 is
`Some` followed by 32 payload bytes; any other tag is an `InvalidData`
("unexpected tag") error. -/
def read : List Nat → Except IoErr (BitcoinNodeHash × List Nat)
  | [] => .error .eof
  | t :: rest =>
    if t = 0 then .ok (.empty, rest)
    else if t = 1 then .ok (.placeholder, rest)
    else if t = 2 then
      if 32 ≤ rest.length then .ok (.value (rest.take 32), rest.drop 32)
      else .error .eof
    else .error .corrupt

end BitcoinNodeHash

/-! ## Position algebra

The free functions of `rustreexo/src/accumulator/util.rs`.  That file is not
part of the repository snapshot (only its callers in `pollard.rs` are), so the
functions below are modelled from the specification: §3 "Tree-position
invariants" (positions numbered bottom-up left-to-right, one perfect tree per
set bit of the leaf count, the biggest tree first) and §4.C. -/

/-- Modelled from the spec: `tree_rows(n)` — the number of rows needed for `n`
leaves, the smallest `r` with `n ≤ 2^r` (total for `n ≤ 2^63`). -/
def tree_rows (n : Nat) : Nat :=
  ((List.range 64).find? (fun r => n ≤ 2 ^ r)).getD 64

/-- Modelled from the spec: the row a position lives in, which under the
bottom-up numbering is the number of leading one bits of the position in
`rows + 1` bits. -/
def detect_row (pos rows : Nat) : Nat :=
  ((List.range (rows + 1)).takeWhile (fun i => pos.testBit (rows - i))).length

/-- Modelled from the spec: row `r` of a forest with `rows` rows occupies
positions `[2^(rows+1) - 2^(rows+1-r), 2^(rows+1) - 2^(rows-r))`; this is the
start of the row. -/
def row_start (row rows : Nat) : Nat :=
  2 ^ (rows + 1) - 2 ^ (rows + 1 - row)

/-- Modelled from the spec: the position of the root of the (populated) tree
whose row is `row`: the row start plus twice the number of leaves in strictly
bigger trees, scaled to the row. -/
def root_position (leaves row rows : Nat) : Nat :=
  row_start row rows + ((leaves >>> (row + 1)) <<< 1)

/-- Modelled from the spec: a root exists at row `r` iff bit `r` of the leaf
count is set. -/
def is_root_populated (row leaves : Nat) : Bool :=
  leaves.testBit row

/-- Modelled from the spec: the left child of `pos` under the bottom-up
numbering. -/
def left_child (pos rows : Nat) : Nat :=
  (pos <<< 1) % 2 ^ (rows + 1)

/-- Modelled from the spec: the right child of `pos`. -/
def right_child (pos rows : Nat) : Nat :=
  left_child pos rows + 1

/-- Modelled from the spec: the parent of `pos`. -/
def parent_pos (pos rows : Nat) : Nat :=
  pos / 2 + 2 ^ rows

/-- Modelled from the spec: `is_left_niece(n)` — even positions are left
children. -/
def is_left_niece (n : Nat) : Bool :=
  n % 2 = 0

/-- Modelled from the spec: the exponents of the per-tree sizes (the set bits
of the leaf count), biggest tree first — the order the roots are held in. -/
def treeExponents (leaves : Nat) : List Nat :=
  ((List.range 64).filter (fun k => leaves.testBit k)).reverse

/-- Modelled from the spec: the row of the root stored at index `j` of the
root list. -/
def rowOfTreeIdx (leaves j : Nat) : Nat :=
  (treeExponents leaves).getD j 0

/-- Helper for `detect_offset`: find the tree (index, size exponent, first
leaf ordinal) containing leaf ordinal `leafLo`. -/
def detectTreeAux : List Nat → Nat → Nat → Nat → Option (Nat × Nat × Nat)
  | [], _, _, _ => none
  | k :: rest, j, start, leafLo =>
    if leafLo < start + 2 ^ k then some (j, k, start)
    else detectTreeAux rest (j + 1) (start + 2 ^ k) leafLo

/-- Modelled from the spec: `detect_offset(pos, n)` returns which tree `pos`
belongs to, the depth of `pos` below that tree's root, and the complemented
path bits that `grab_node` consumes top-down (bit `row` is 0 exactly when the
step at that height goes to the right child). -/
def detect_offset (pos leaves : Nat) : Option (Nat × Nat × Nat) :=
  let rows := tree_rows leaves
  let nr := detect_row pos rows
  if pos < row_start nr rows then none
  else
    let offset := pos - row_start nr rows
    let leafLo := offset <<< nr
    match detectTreeAux (treeExponents leaves) 0 0 leafLo with
    | none => none
    | some (j, k, start) =>
      if nr ≤ k then
        let blen := k - nr
        let path := (leafLo - start) >>> nr
        some (j, blen, (2 ^ blen - 1) ^^^ path)
      else none

/-! ## The full in-memory Pollard

From `rustreexo/src/accumulator/pollard.rs`.  A `Node` owns its children
(`Rc<Node>`); the weak parent back-pointers of the Rust structure are implicit
in the tree shape here.  The in-memory `ty` field is only ever `Leaf` or
`Branch`; the constructors below split `Branch` by which children are present
(in Rust: `Option<Rc<Node>>` fields), which is exactly the distinction the
serialised tags 0/2/3/4 record. -/

inductive PNode
  | leaf (data : BitcoinNodeHash)
  | branch (data : BitcoinNodeHash) (l r : PNode)
  | branchL (data : BitcoinNodeHash) (l : PNode)
  | branchR (data : BitcoinNodeHash) (r : PNode)
  | branch0 (data : BitcoinNodeHash)
deriving DecidableEq, Repr

namespace PNode

def data : PNode → BitcoinNodeHash
  | .leaf h => h
  | .branch h _ _ => h
  | .branchL h _ => h
  | .branchR h _ => h
  | .branch0 h => h

def left : PNode → Option PNode
  | .branch _ l _ => some l
  | .branchL _ l => some l
  | _ => none

def right : PNode → Option PNode
  | .branch _ _ r => some r
  | .branchR _ r => some r
  | _ => none

/-- Build a branch node from optional children (the Rust `Node` with
`ty: Branch` and `Option` child fields). -/
def mkBranch (h : BitcoinNodeHash) : Option PNode → Option PNode → PNode
  | some a, some b => .branch h a b
  | some a, none => .branchL h a
  | none, some b => .branchR h b
  | none, none => .branch0 h

end PNode

/-- A batch proof (`Proof::new(targets, hashes)`; the `proof.rs` struct is
not in the snapshot, but `Pollard::prove` builds it from exactly these two
fields). -/
structure Proof where
  targets : List Nat
  hashes : List BitcoinNodeHash
deriving DecidableEq, Repr

/-- Error kinds surfaced by the accumulator operations.  `notInForest` is the
`Err("node .. not in the forest")` of `del`, `notFound` the
`Err("Could not find node")` of `prove` / `grab_node`, and `panicked` models a
Rust `panic!` or `unwrap` on `None`. -/
inductive AccErr
  | notInForest
  | notFound
  | panicked
  | proofInvalid
deriving DecidableEq, Repr

/-- The full accumulator: the owned root list, the total number of leaves ever
added, and the key set of the `BTreeMap` leaf index (kept sorted like the
`BTreeMap`; hash-to-node resolution is recomputed by searching the trees,
which agrees with the Rust pointer graph whenever node hashes are distinct). -/
structure Pollard where
  roots : List PNode
  leaves : Nat
  map : List BitcoinNodeHash
deriving DecidableEq, Repr

/-- Sorted insert into the `BTreeMap` key set (no duplicate keys). -/
def mapInsert (h : BitcoinNodeHash) : List BitcoinNodeHash → List BitcoinNodeHash
  | [] => [h]
  | x :: xs =>
    if h = x then x :: xs
    else if BitcoinNodeHash.hlt h x then h :: x :: xs
    else x :: mapInsert h xs

def mapContains (m : List BitcoinNodeHash) (h : BitcoinNodeHash) : Bool :=
  m.any (fun x => x = h)

def mapRemove (m : List BitcoinNodeHash) (h : BitcoinNodeHash) : List BitcoinNodeHash :=
  m.filter (fun x => x ≠ h)

/-- Search one tree for the (first) leaf carrying hash `t`; the returned
directions go root-to-leaf, `false` meaning left.  Only `Leaf` nodes are
indexed by the map, so only they match. -/
def findInTree (t : BitcoinNodeHash) : PNode → Option (List Bool)
  | .leaf h => if h = t then some [] else none
  | .branch _ l r =>
    match findInTree t l with
    | some p => some (false :: p)
    | none =>
      match findInTree t r with
      | some p => some (true :: p)
      | none => none
  | .branchL _ l => (findInTree t l).map (false :: ·)
  | .branchR _ r => (findInTree t r).map (true :: ·)
  | .branch0 _ => none

/-- Locate the leaf with hash `t` in the forest: tree index plus path. -/
def findPathAux (t : BitcoinNodeHash) : List PNode → Nat → Option (Nat × List Bool)
  | [], _ => none
  | root :: rest, j =>
    match findInTree t root with
    | some p => some (j, p)
    | none => findPathAux t rest (j + 1)

def findPath (roots : List PNode) (t : BitcoinNodeHash) : Option (Nat × List Bool) :=
  findPathAux t roots 0

/-- `Pollard::get_pos`, reconstructed from the path: start at the root's
position and walk down (`left_child` / `right_child` per direction bit). -/
def posOfPath (leaves tree : Nat) (dirs : List Bool) : Nat :=
  let rows := tree_rows leaves
  dirs.foldl
    (fun pos d => if d then right_child pos rows else left_child pos rows)
    (root_position leaves (rowOfTreeIdx leaves tree) rows)

namespace Pollard

/-- `Pollard::new()`. -/
def new : Pollard := ⟨[], 0, []⟩

def getPosOfHash (p : Pollard) (t : BitcoinNodeHash) : Option Nat :=
  (findPath p.roots t).map (fun pr => posOfPath p.leaves pr.1 pr.2)

/-- `Pollard::grab_node(pos)`: walk down from the root selected by
`detect_offset`, tracking the node, its sibling and its parent. -/
def grab_node (p : Pollard) (pos : Nat) : Except AccErr (PNode × PNode × PNode) :=
  match detect_offset pos p.leaves with
  | none => .error .notFound
  | some (tree, blen, bits) =>
    match p.roots.get? tree with
    | none => .error .panicked
    | some root =>
      let st := ((List.range blen).reverse).foldl
        (fun (st : Option PNode × Option PNode × Option PNode) row =>
          let parent := st.2.1
          match st.1 with
          | some node =>
            if is_left_niece ((bits >>> row) % 2) then (node.right, node.left, parent)
            else (node.left, node.right, parent)
          | none => (none, none, parent))
        (some root, some root, some root)
      match st with
      | (some n, some s, some pr) => .ok (n, s, pr)
      | _ => .error .notFound

/-- `Pollard::get_hash(pos)`. -/
def get_hash (p : Pollard) (pos : Nat) : Except AccErr BitcoinNodeHash :=
  (p.grab_node pos).map (fun t => t.1.data)

end Pollard

/-! ### Adding leaves (`Pollard::add_single` / `add`) -/

/-- The root-combining loop of `add_single`: while the low bit of the running
leaf count is one, pop the smallest root; an `Empty` root is discarded
(short-circuit), otherwise the popped root becomes the left child and the
carried node the right child of a fresh branch hashed with `parent_hash`.
Fuel-driven (`leaves + 1` iterations always suffice); an empty root list with
fuel left models the unreachable `pop().unwrap()` panic by stopping. -/
def addLoop : Nat → List PNode → PNode → Nat → List PNode × PNode
  | 0, roots, node, _ => (roots, node)
  | fuel + 1, roots, node, leaves =>
    if leaves % 2 = 1 then
      match roots.getLast? with
      | none => (roots, node)
      | some root =>
        let roots' := roots.dropLast
        if root.data = .empty then addLoop fuel roots' node (leaves / 2)
        else
          addLoop fuel roots'
            (.branch (BitcoinNodeHash.parent_hash root.data node.data) root node)
            (leaves / 2)
    else (roots, node)

namespace Pollard

/-- `Pollard::add_single`: index the new leaf, run the combining loop, push
the resulting tree and increment the leaf count. -/
def add_single (p : Pollard) (value : BitcoinNodeHash) : Pollard :=
  let st := addLoop (p.leaves + 1) p.roots (.leaf value) p.leaves
  { roots := st.1 ++ [st.2], leaves := p.leaves + 1, map := mapInsert value p.map }

/-- `Pollard::add`. -/
def add (p : Pollard) (values : List BitcoinNodeHash) : Pollard :=
  values.foldl add_single p

end Pollard

/-! ### Deleting leaves (`Pollard::del_single` / `del`) -/

/-- The structural effect of `del_single` below the root: walk down `dirs`;
at the target's parent the sibling replaces the parent; every ancestor above
recomputes its hash from its (present) children.  A `none` result models the
silent no-op the Rust code performs when a needed sibling or child is absent
(never the case in states the full pollard reaches). -/
def delPath : PNode → List Bool → Option PNode
  | .branch _ l r, [d] => some (if d then l else r)
  | .branchL _ l, [d] => if d then some l else none
  | .branchR _ r, [d] => if d then none else some r
  | .branch _ l r, d :: rest =>
    match d with
    | true =>
      match delPath r rest with
      | none => none
      | some r' => some (.branch (BitcoinNodeHash.parent_hash l.data r'.data) l r')
    | false =>
      match delPath l rest with
      | none => none
      | some l' => some (.branch (BitcoinNodeHash.parent_hash l'.data r.data) l' r)
  | _, _ => none

/-- Apply a single deletion located at tree `ti`, path `dirs`.  An empty path
deletes a root: it is replaced by a childless branch holding the default
(`Empty`) hash, exactly as `del_single` does for the `parent == None` case. -/
def delAtPath (roots : List PNode) (ti : Nat) (dirs : List Bool) : List PNode :=
  match roots.get? ti with
  | none => roots
  | some root =>
    match dirs with
    | [] => roots.set ti (.branch0 .empty)
    | _ =>
      match delPath root dirs with
      | none => roots
      | some newRoot => roots.set ti newRoot

/-- Lexicographic order on the `(position, hash)` pairs `del` sorts. -/
def pairLt (a b : Nat × BitcoinNodeHash) : Bool :=
  if a.1 < b.1 then true
  else if b.1 < a.1 then false
  else BitcoinNodeHash.hlt a.2 b.2

def insertSortedPair (x : Nat × BitcoinNodeHash) :
    List (Nat × BitcoinNodeHash) → List (Nat × BitcoinNodeHash)
  | [] => [x]
  | y :: ys => if pairLt x y then x :: y :: ys else y :: insertSortedPair x ys

def sortPairs (l : List (Nat × BitcoinNodeHash)) : List (Nat × BitcoinNodeHash) :=
  l.foldr insertSortedPair []

namespace Pollard

/-- The deletion loop of `Pollard::del`: for each target (in ascending
`(position, hash)` order) remove it from the index — failing with the
"node .. not in the forest" error when it is already gone — and apply the
structural deletion.  A mapped hash that cannot be located in the trees would
be an `upgrade().unwrap()` panic in Rust. -/
def delLoop : List BitcoinNodeHash → Pollard → Except AccErr Pollard
  | [], p => .ok p
  | t :: rest, p =>
    if mapContains p.map t then
      let p' : Pollard := { p with map := mapRemove p.map t }
      match findPath p'.roots t with
      | some pr => delLoop rest { p' with roots := delAtPath p'.roots pr.1 pr.2 }
      | none => .error .panicked
    else .error .notInForest

/-- `Pollard::del`: look every target up in the index (targets that are not
indexed are dropped by the `flat_map`), sort the found ones by
`(position, hash)`, then delete one by one. -/
def del (p : Pollard) (targets : List BitcoinNodeHash) : Except AccErr Pollard :=
  let pairs := targets.filterMap fun t =>
    if mapContains p.map t then some ((p.getPosOfHash t).getD 0, t) else none
  delLoop (sortPairs pairs).unzip.2 p

/-- `Pollard::modify(add, del)`: deletes first, then adds. -/
def modify (p : Pollard) (add_ del_ : List BitcoinNodeHash) : Except AccErr Pollard :=
  (p.del del_).map (fun q => q.add add_)

end Pollard

/-! ### Batch proofs (`Pollard::prove`) -/

/-- Modelled from the spec: is `pos` the position of a populated root? -/
def is_root_position (pos leaves rows : Nat) : Bool :=
  (List.range (rows + 1)).any fun row =>
    is_root_populated row leaves && pos = root_position leaves row rows

/-- Sorted (ascending) insert keeping duplicates. -/
def sortedInsertNat (x : Nat) : List Nat → List Nat
  | [] => [x]
  | y :: ys => if x ≤ y then x :: y :: ys else y :: sortedInsertNat x ys

/-- Modelled from the spec: one row of the proof-position computation.  The
row's computable positions arrive sorted; roots need nothing; two adjacent
siblings prove each other (their parent becomes computable); otherwise the
sibling joins the proof and the parent becomes computable. -/
def gppScanAux (leaves rows : Nat) : Nat → List Nat → List Nat × List Nat
  | 0, _ => ([], [])
  | _, [] => ([], [])
  | fuel + 1, node :: rest =>
    if is_root_position node leaves rows then gppScanAux leaves rows fuel rest
    else
      match rest with
      | next :: rest2 =>
        if node ^^^ 1 = next then
          let s := gppScanAux leaves rows fuel rest2
          (s.1, parent_pos node rows :: s.2)
        else
          let s := gppScanAux leaves rows fuel (next :: rest2)
          ((node ^^^ 1) :: s.1, parent_pos node rows :: s.2)
      | [] => ([node ^^^ 1], [parent_pos node rows])

def gppScan (leaves rows : Nat) (l : List Nat) : List Nat × List Nat :=
  gppScanAux leaves rows l.length l

/-- Modelled from the spec: `get_proof_positions(targets, n, rows)` — the
positions whose hashes a batch proof for `targets` must supply, row by row
from the bottom, each row in ascending order. -/
def get_proof_positions (targets : List Nat) (num_leaves rows : Nat) : List Nat :=
  let init := targets.foldr sortedInsertNat []
  ((List.range (rows + 1)).foldl
    (fun (acc : List Nat × List Nat) row =>
      let rowT := acc.2.filter (fun x => detect_row x rows = row)
      let s := gppScan num_leaves rows rowT
      (acc.1 ++ s.1, s.2.foldl (fun c q => sortedInsertNat q c) acc.2))
    ([], init)).1

namespace Pollard

/-- `Pollard::prove(targets)`: positions are looked up per target, in target
order; the proof hashes are the hashes at `get_proof_positions`, in that
order.  A missing target gives the "Could not find node" error; a failing
`get_hash` would be unwrapped (panic). -/
def prove (p : Pollard) (targets : List BitcoinNodeHash) : Except AccErr Proof := do
  let positions ← targets.mapM fun t =>
    match p.getPosOfHash t with
    | some pos => if mapContains p.map t then .ok pos else .error AccErr.notFound
    | none => .error AccErr.notFound
  let needed := get_proof_positions positions p.leaves (tree_rows p.leaves)
  let hashes ← needed.mapM fun pos =>
    match p.get_hash pos with
    | .ok h => .ok h
    | .error _ => .error AccErr.panicked
  return ⟨positions, hashes⟩

end Pollard

/-! ### Node and accumulator serialisation (`Node::write_one` / `Node::read_one`,
`Pollard::serialize` / `Pollard::deserialize`) -/

namespace PNode

/-- `Node::write_one`: an 8-byte little-endian node-type tag — `Branch = 0`,
`Leaf = 1`, `BranchLeftOnly = 2`, `BranchRightOnly = 3`,
`BranchNoChildren = 4`, the branch tags chosen by which children are present —
followed by the node hash, then the present children in depth-first
pre-order. -/
def write_one : PNode → List Nat
  | .leaf h => le8 1 ++ h.write
  | .branch h l r => le8 0 ++ h.write ++ l.write_one ++ r.write_one
  | .branchL h l => le8 2 ++ h.write ++ l.write_one
  | .branchR h r => le8 3 ++ h.write ++ r.write_one
  | .branch0 h => le8 4 ++ h.write

end PNode

/-- `Node::read_one`: reads the 8-byte node-type tag and the hash; a `Leaf`
node is indexed; a branch node reads its children according to the tag, but
only when its hash is non-empty; a tag above 4 is
`panic!("Invalid node type")` — an abort, not an error value.  Fuel-driven:
each recursive call consumes at least 9 stream bytes, so fuel equal to the
stream length always suffices.  Returns the node, the leaf hashes indexed
(in traversal order), and the unread rest of the stream. -/
def readOne : Nat → List Nat → Except IoErr (PNode × List BitcoinNodeHash × List Nat)
  | 0, _ => .error .eof
  | fuel + 1, s =>
    if s.length < 8 then .error .eof
    else
      let tyv := leVal (s.take 8)
      match BitcoinNodeHash.read (s.drop 8) with
      | .error e => .error e
      | .ok (data, rest1) =>
        if tyv = 1 then .ok (.leaf data, [data], rest1)
        else if 5 ≤ tyv then .error .panicked
        else if data.is_empty then .ok (.branch0 data, [], rest1)
        else if tyv = 0 then
          match readOne fuel rest1 with
          | .error e => .error e
          | .ok (l, lm, rest2) =>
            match readOne fuel rest2 with
            | .error e => .error e
            | .ok (r, rm, rest3) => .ok (.branch data l r, lm ++ rm, rest3)
        else if tyv = 2 then
          match readOne fuel rest1 with
          | .error e => .error e
          | .ok (l, lm, rest2) => .ok (.branchL data l, lm, rest2)
        else if tyv = 3 then
          match readOne fuel rest1 with
          | .error e => .error e
          | .ok (r, rm, rest2) => .ok (.branchR data r, rm, rest2)
        else .ok (.branch0 data, [], rest1)

namespace Pollard

/-- `Pollard::serialize`: 8-byte little-endian leaf count, 8-byte root count,
then each root in `write_one` form. -/
def serialize (p : Pollard) : List Nat :=
  le8 p.leaves ++ le8 p.roots.length ++ (p.roots.map PNode.write_one).flatten

/-- The root-reading loop of `Pollard::deserialize`. -/
def readRoots : Nat → List Nat → Except IoErr (List PNode × List BitcoinNodeHash × List Nat)
  | 0, s => .ok ([], [], s)
  | k + 1, s =>
    match readOne s.length s with
    | .error e => .error e
    | .ok (root, lm, s1) =>
      match readRoots k s1 with
      | .error e => .error e
      | .ok (roots, lms, s2) => .ok (root :: roots, lm ++ lms, s2)

/-- `Pollard::deserialize`: read the leaf count and root count, then the
roots; the leaf index is rebuilt from the `Leaf` nodes encountered. -/
def deserialize (s : List Nat) : Except IoErr Pollard :=
  if s.length < 8 then .error .eof
  else
    let leaves := leVal (s.take 8)
    let s1 := s.drop 8
    if s1.length < 8 then .error .eof
    else
      let rootsLen := leVal (s1.take 8)
      match readRoots rootsLen (s1.drop 8) with
      | .error e => .error e
      | .ok (roots, lms, _) =>
        .ok ⟨roots, leaves, lms.foldl (fun m h => mapInsert h m) []⟩

end Pollard

/-- Equality on `Except` results is decidable componentwise (needed so that
witnesses can evaluate results by `decide`). -/
instance {e a : Type} [DecidableEq e] [DecidableEq a] : DecidableEq (Except e a) :=
  fun x y =>
    match x, y with
    | .ok u, .ok v =>
      if h : u = v then .isTrue (by rw [h]) else .isFalse (by intro hh; cases hh; exact h rfl)
    | .error u, .error v =>
      if h : u = v then .isTrue (by rw [h]) else .isFalse (by intro hh; cases hh; exact h rfl)
    | .ok _, .error _ => .isFalse (by intro hh; cases hh)
    | .error _, .ok _ => .isFalse (by intro hh; cases hh)

/-! ## UTXO leaf fingerprints

Two implementations of `LeafData::get_leaf_hashes` exist in the repository:
`circuit/program/utreexo/src/btc_structs.rs` (used by the zk circuit's
`process_block`) and `input-generator/src/main.rs` (used when preparing the
circuit's inputs).  Both hash with `sha2::Sha512_256` over the five fields in
little-endian; the input-generator version first feeds the 64-byte
`UTREEXO_TAG_V1` twice. -/

/-- A transaction output: value in satoshis plus the raw locking script. -/
structure TxOut where
  value : Nat
  script_pubkey : List Nat
deriving DecidableEq, Repr

/-- The UTXO commitment record `LeafData`.  `block_hash` and `txid` are the
raw 32 bytes that `chain_update` consumes. -/
structure LeafData where
  block_hash : List Nat
  txid : List Nat
  vout : Nat
  header_code : Nat
  utxo : TxOut
deriving DecidableEq, Repr

/-- Bitcoin's `VarInt` consensus encoding. -/
def varint (n : Nat) : List Nat :=
  if n < 253 then [n]
  else if n ≤ 65535 then [253, n % 256, n / 256 % 256]
  else if n ≤ 4294967295 then 254 :: le4 n
  else 255 :: le8 n

/-- `TxOut::consensus_encode`: 8-byte little-endian value, var-int script
length, then the script bytes. -/
def serTxOut (u : TxOut) : List Nat :=
  le8 u.value ++ varint u.script_pubkey.length ++ u.script_pubkey

/-- `UTREEXO_TAG_V1` (`input-generator/src/main.rs`): the SHA-512 hash of the
string `UtreexoV1`, 64 bytes. -/
def UTREEXO_TAG_V1 : List Nat :=
  [0x5b, 0x83, 0x2d, 0xb8, 0xca, 0x26, 0xc2, 0x5b, 0xe1, 0xc5, 0x42, 0xd6,
   0xcc, 0xed, 0xdd, 0xa8, 0xc1, 0x45, 0x61, 0x5c, 0xff, 0x5c, 0x35, 0x72,
   0x7f, 0xb3, 0x46, 0x26, 0x10, 0x80, 0x7e, 0x20, 0xae, 0x53, 0x4d, 0xc3,
   0xf6, 0x42, 0x99, 0x19, 0x99, 0x31, 0x77, 0x2e, 0x03, 0x78, 0x7d, 0x18,
   0x15, 0x6e, 0xb3, 0x15, 0x1e, 0x0e, 0xd1, 0xb3, 0x09, 0x8b, 0xdc, 0x84,
   0x45, 0x86, 0x18, 0x85]

/-- The five fields fed to the digest, in order: block hash, txid, `vout`
little-endian, `header_code` little-endian, consensus-encoded output. -/
def leafFields (ld : LeafData) : List Nat :=
  ld.block_hash ++ ld.txid ++ le4 ld.vout ++ le4 ld.header_code ++ serTxOut ld.utxo

namespace LeafData

/-- The digest input of `LeafData::get_leaf_hashes` in
`circuit/program/utreexo/src/btc_structs.rs`: the five fields only — no
domain-separation tag. -/
def preimageCircuit (ld : LeafData) : List Nat :=
  leafFields ld

/-- The digest input of `LeafData::get_leaf_hashes` in
`input-generator/src/main.rs`: `UTREEXO_TAG_V1` twice, then the five
fields. -/
def preimageInputGen (ld : LeafData) : List Nat :=
  UTREEXO_TAG_V1 ++ UTREEXO_TAG_V1 ++ leafFields ld

/-- `get_leaf_hashes` as the circuit computes it. -/
def get_leaf_hashes_circuit (ld : LeafData) : BitcoinNodeHash :=
  .value (sha512x256 ld.preimageCircuit)

/-- `get_leaf_hashes` as the input-generator computes it. -/
def get_leaf_hashes_inputgen (ld : LeafData) : BitcoinNodeHash :=
  .value (sha512x256 ld.preimageInputGen)

end LeafData

/-! ## The service state machine

From `accumulator-service/src/state_machine.rs`.  The embedding keeps the
parts the dispatch logic reads: the shared `ServiceState`, the command queue
between `Context::send` and the worker loop, and the worker's `running` job
slot.  Job completion polling (which moves `Building`/`Updating` to `Idle` or
`Error` when the spawned job finishes) is the separately specified
job-completion transition and is not a command effect. -/

inductive Command
  | build (parquet : String) (resume_from : Option String)
  | update (height : Nat)
  | pause
  | resume
  | stop
  | dump (dir : String)
  | restore (dir : String)
deriving DecidableEq, Repr

inductive ServiceState
  | idle
  | building
  | updating (height : Nat)
  | paused
  | error (msg : String)
deriving DecidableEq, Repr

inductive JobKind
  | build (parquet : String) (resume_from : Option String)
  | update (height : Nat)
deriving DecidableEq, Repr

inductive DispatchError
  | invalidState
  | channelClosed
deriving DecidableEq, Repr

/-- `Context::is_valid_transition`, clause for clause. -/
def is_valid_transition : ServiceState → Command → Bool
  | .idle, .build _ _ => true
  | .idle, .update _ => true
  | .idle, .dump _ => true
  | .idle, .restore _ => true
  | .building, .pause => true
  | .building, .stop => true
  | .building, .dump _ => true
  | .updating _, .pause => true
  | .updating _, .stop => true
  | .updating _, .dump _ => true
  | .paused, .resume => true
  | .paused, .stop => true
  | .paused, .dump _ => true
  | .error _, .restore _ => true
  | _, _ => false

/-- A service configuration: the shared state cell, the mpsc command queue,
and the worker's running-job slot. -/
structure Config where
  state : ServiceState
  queue : List Command
  running : Option JobKind
deriving DecidableEq, Repr

/-- Environment outcomes of the filesystem work a command triggers. -/
structure Env where
  dumpOk : Bool
  restoreOk : Bool
deriving DecidableEq, Repr

/-- `Context::send`: reject with `InvalidState` when the transition table
forbids the command; otherwise flip `Idle` to `Building`/`Updating` *before*
enqueueing (pre-emptive visibility); `Restore` is handled synchronously
(state goes through `Updating{0}` and ends `Idle` or `Error`); every other
command is pushed onto the worker queue. -/
def send (env : Env) (c : Config) (cmd : Command) :
    Except DispatchError Unit × Config :=
  if ¬ is_valid_transition c.state cmd then (.error .invalidState, c)
  else
    let st1 : ServiceState :=
      match cmd, c.state with
      | .build _ _, .idle => .building
      | .update h, .idle => .updating h
      | _, s => s
    match cmd with
    | .restore _ =>
      let final : ServiceState :=
        if env.restoreOk then .idle else .error "restore failed"
      (.ok (), { c with state := final })
    | _ => (.ok (), { c with state := st1, queue := c.queue ++ [cmd] })

/-- The worker loop body for one dequeued command (the `match cmd` of the
spawned task in `Context::new`). -/
def workerStep (env : Env) (c : Config) (cmd : Command) : Config :=
  match cmd with
  | .build pq rf =>
    if c.running.isSome then c
    else { c with state := .building, running := some (.build pq rf) }
  | .update h =>
    if c.running.isSome then c
    else { c with state := .updating h, running := some (.update h) }
  | .pause =>
    match c.running with
    | some _ => { c with running := none, state := .paused }
    | none => c
  | .resume =>
    if c.state ≠ .paused then c
    else
      match c.running with
      | some (JobKind.build pq rf) =>
        { c with running := none, queue := c.queue ++ [Command.build pq rf] }
      | some (JobKind.update h) =>
        { c with running := none, queue := c.queue ++ [Command.update h] }
      | none => c
  | .stop => { c with running := none, state := .idle }
  | .dump _ => if env.dumpOk then c else { c with state := .error "dump failed" }
  | .restore _ =>
    if env.restoreOk then { c with running := none, state := .idle }
    else { c with running := none, state := .error "restore failed" }

/-- The net effect of submitting one command: `send`, then — when the command
was enqueued — the worker dequeuing and handling it. -/
def commandNet (env : Env) (c : Config) (cmd : Command) :
    Except DispatchError Unit × Config :=
  let r := send env c cmd
  match r.1 with
  | .error e => (.error e, r.2)
  | .ok _ =>
    match cmd with
    | .restore _ => (.ok (), r.2)
    | _ => (.ok (), workerStep env { r.2 with queue := c.queue } cmd)

/-- The §4.J transition table as a relation on `(from, command, to)`. -/
def inTable : ServiceState → Command → ServiceState → Bool
  | .idle, .build _ _, .building => true
  | .idle, .update h, .updating h2 => h = h2
  | .idle, .dump _, .idle => true
  | .idle, .dump _, .error _ => true
  | .idle, .restore _, .idle => true
  | .idle, .restore _, .error _ => true
  | .building, .pause, .paused => true
  | .updating _, .pause, .paused => true
  | .building, .stop, .idle => true
  | .updating _, .stop, .idle => true
  | .building, .dump _, .building => true
  | .updating h, .dump _, .updating h2 => h = h2
  | .paused, .resume, .building => true
  | .paused, .resume, .updating _ => true
  | .paused, .stop, .idle => true
  | .paused, .dump _, .paused => true
  | .error _, .restore _, .idle => true
  | .error _, .restore _, .error _ => true
  | _, _, _ => false

/-- Run a command sequence from a configuration, one `commandNet` step per
command (rejected commands leave the configuration unchanged). -/
def runSeq (env : Env) (c : Config) : List Command → Config
  | [] => c
  | cmd :: rest => runSeq env (commandNet env c cmd).2 rest

/-! ## Snapshot files on disk: dump, restore, and the update job

From `state_helpers` in `accumulator-service/src/state_machine.rs` and
`updater::update_block` in `accumulator-service/src/updater.rs`.  The
filesystem is a mapping from paths to byte contents; every primitive the code
runs is recorded in an operation trace.  `std::fs::copy` and `File::create`
write directly to their destination path. -/

/-- The filesystem model. -/
structure Fs where
  files : List (String × List Nat)
  dirs : List String
deriving DecidableEq, Repr

namespace Fs

def lookup (fs : Fs) (p : String) : Option (List Nat) :=
  (fs.files.find? (fun e => e.1 == p)).map (·.2)

def isFile (fs : Fs) (p : String) : Bool :=
  (fs.files.find? (fun e => e.1 == p)).isSome

def setFile (fs : Fs) (p : String) (content : List Nat) : Fs :=
  { fs with files := (p, content) :: fs.files.filter (fun e => e.1 != p) }

end Fs

/-- The filesystem primitives the dump / restore / update code performs. -/
inductive FsOp
  | createDirAll (dir : String)
  | copy (src dst : String)
  | createFile (path : String)
  | rename (src dst : String)
deriving DecidableEq, Repr

/-- `state_helpers::dump_sync(dir)`: create the target directory, copy
`mem_forest.bin` into it (mandatory — a missing source is the error), copy
`block_hashes.bin` when present, and copy `pollard.bin` when present or else
create an empty placeholder.  Every write lands directly on the final path
inside `dir`. -/
def dump_sync (fs : Fs) (dir : String) :
    Except IoErr Unit × Fs × List FsOp :=
  let fs1 := { fs with dirs := dir :: fs.dirs }
  let ops1 := [FsOp.createDirAll dir]
  match fs1.lookup "mem_forest.bin" with
  | none => (.error .notFound, fs1, ops1)
  | some content =>
    let fs2 := fs1.setFile (dir ++ "/mem_forest.bin") content
    let ops2 := ops1 ++ [FsOp.copy "mem_forest.bin" (dir ++ "/mem_forest.bin")]
    let st3 :=
      if fs2.isFile "block_hashes.bin" then
        (fs2.setFile (dir ++ "/block_hashes.bin") ((fs2.lookup "block_hashes.bin").getD []),
         ops2 ++ [FsOp.copy "block_hashes.bin" (dir ++ "/block_hashes.bin")])
      else (fs2, ops2)
    if st3.1.isFile "pollard.bin" then
      (.ok (),
       st3.1.setFile (dir ++ "/pollard.bin") ((st3.1.lookup "pollard.bin").getD []),
       st3.2 ++ [FsOp.copy "pollard.bin" (dir ++ "/pollard.bin")])
    else
      (.ok (), st3.1.setFile (dir ++ "/pollard.bin") [],
       st3.2 ++ [FsOp.createFile (dir ++ "/pollard.bin")])

/-- `state_helpers::restore_sync(dir)`: `mem_forest.bin` must exist in the
snapshot (else `NotFound`); it and any present `pollard.bin` /
`block_hashes.bin` are copied over the working-directory files. -/
def restore_sync (fs : Fs) (dir : String) :
    Except IoErr Unit × Fs × List FsOp :=
  match fs.lookup (dir ++ "/mem_forest.bin") with
  | none => (.error .notFound, fs, [])
  | some content =>
    let fs1 := fs.setFile "mem_forest.bin" content
    let ops1 := [FsOp.copy (dir ++ "/mem_forest.bin") "mem_forest.bin"]
    let st2 :=
      if fs1.isFile (dir ++ "/pollard.bin") then
        (fs1.setFile "pollard.bin" ((fs1.lookup (dir ++ "/pollard.bin")).getD []),
         ops1 ++ [FsOp.copy (dir ++ "/pollard.bin") "pollard.bin"])
      else (fs1, ops1)
    if st2.1.isFile (dir ++ "/block_hashes.bin") then
      (.ok (),
       st2.1.setFile "block_hashes.bin" ((st2.1.lookup (dir ++ "/block_hashes.bin")).getD []),
       st2.2 ++ [FsOp.copy (dir ++ "/block_hashes.bin") "block_hashes.bin"])
    else (.ok (), st2.1, st2.2)

/-- Environment outcomes of the steps of `update_block` that live outside the
filesystem (RPC, in-memory forest work, serialisation). -/
structure UpdateEnv where
  deserializeOk : Bool
  modifyOk : Bool
  serializeOk : Bool
  newForest : List Nat
  pruneOk : Bool
  newPollard : List Nat
deriving DecidableEq, Repr

/-- The filesystem skeleton of `updater::update_block` (with
`pollard::prune_forest_sync` inlined at the end, as the updater calls it):
open and deserialize `mem_forest.bin`, modify the forest in memory, then
`File::create("mem_forest.bin")` — truncating the on-disk file in place —
and serialize into it; finally re-create `pollard.bin` and serialize the
pruned pollard.  A serialisation failure after the `create` leaves the
truncated file behind. -/
def update_block (fs : Fs) (env : UpdateEnv) :
    Except IoErr Unit × Fs × List FsOp :=
  match fs.lookup "mem_forest.bin" with
  | none => (.error .notFound, fs, [])
  | some _ =>
    if ¬ env.deserializeOk then (.error .corrupt, fs, [])
    else if ¬ env.modifyOk then (.error .notFound, fs, [])
    else
      let fs1 := fs.setFile "mem_forest.bin" []
      let ops1 := [FsOp.createFile "mem_forest.bin"]
      if ¬ env.serializeOk then (.error .eof, fs1, ops1)
      else
        let fs2 := fs1.setFile "mem_forest.bin" env.newForest
        if ¬ env.pruneOk then (.error .corrupt, fs2, ops1)
        else
          (.ok (), (fs2.setFile "pollard.bin" []).setFile "pollard.bin" env.newPollard,
           ops1 ++ [FsOp.createFile "pollard.bin"])

/-- Does an operation trace contain any rename at all? -/
def hasRename (ops : List FsOp) : Bool :=
  ops.any fun op => match op with | .rename _ _ => true | _ => false

/-! ## Well-formedness of accumulator states

The states the accumulator reaches satisfy: every `Some` payload is 32 bytes;
a branch with the `Empty` hash has no children (deletion only ever installs
childless `Empty` nodes); the leaf index is exactly the set of leaf hashes
reachable from the roots. -/

/-- A hash value payload has the right length. -/
def hashWf : BitcoinNodeHash → Bool
  | .value inner => inner.length = 32
  | _ => true

/-- Structural well-formedness of a stored node (see section comment). -/
def nodeWf : PNode → Bool
  | .leaf h => hashWf h
  | .branch h l r => !h.is_empty && hashWf h && nodeWf l && nodeWf r
  | .branchL h l => !h.is_empty && hashWf h && nodeWf l
  | .branchR h r => !h.is_empty && hashWf h && nodeWf r
  | .branch0 h => hashWf h

/-- The leaf hashes of a tree in depth-first order. -/
def leafHashes : PNode → List BitcoinNodeHash
  | .leaf h => [h]
  | .branch _ l r => leafHashes l ++ leafHashes r
  | .branchL _ l => leafHashes l
  | .branchR _ r => leafHashes r
  | .branch0 _ => []

/-- The number of nodes of a tree. -/
def nodeCount : PNode → Nat
  | .leaf _ => 1
  | .branch _ l r => 1 + nodeCount l + nodeCount r
  | .branchL _ l => 1 + nodeCount l
  | .branchR _ r => 1 + nodeCount r
  | .branch0 _ => 1

/-- The leaf index as `deserialize` rebuilds it: the reachable leaf hashes,
folded into the sorted key set. -/
def canonicalMap (roots : List PNode) : List BitcoinNodeHash :=
  ((roots.map leafHashes).flatten).foldl (fun m h => mapInsert h m) []

/-! ## The pruned accumulator and the forest-to-pollard conversion

`accumulator-service/src/script_utils.rs` (`pollard_conv::forest_to_pollard`)
and `accumulator-service/src/pollard.rs` (`pollard_after_block`) drive
`rustreexo::accumulator::mem_forest::MemForest` and the generic pruned
`rustreexo::accumulator::pollard::Pollard`.  Neither defining file is in the
repository snapshot, so both are modelled from the specification:

* the full `MemForest` follows the §4.D forest contract — the very algorithms
  of the full in-memory `Pollard` embedded above (§4.E: "Same external
  contract as §4.D"), including the §4.E serialised layout, which §4.E says is
  shared by forest and pollard.  The `Pollard` type above therefore doubles as
  the model of `MemForest`.
* the pruned pollard holds the same root/leaf data but materialises only the
  branches that proofs have supplied; it advances "under the same transitions
  as the full forest" (§2), so its `modify` is the same §4.D algorithm run on
  the partially materialised trees, with the remembered targets as its leaf
  index. -/

/-- Does the subtree contain a leaf whose hash is in `ts`? -/
def keepNode (ts : List BitcoinNodeHash) : PNode → Bool
  | .leaf h => mapContains ts h
  | .branch _ l r => keepNode ts l || keepNode ts r
  | .branchL _ l => keepNode ts l
  | .branchR _ r => keepNode ts r
  | .branch0 _ => false

/-- A non-materialised node: only its hash is kept (a leaf keeps its leaf
form — either way only the data is ever consulted). -/
def summarize : PNode → PNode
  | .leaf h => .leaf h
  | t => .branch0 t.data

/-- Modelled from the spec: the branches of a forest tree that a batch proof
for `ts` materialises in the pruned pollard — every node on a root-to-target
path together with the data of both its children; everything else is
summarised to its hash. -/
def pruneTo (ts : List BitcoinNodeHash) : PNode → PNode
  | .leaf h => .leaf h
  | .branch h l r =>
    if keepNode ts l || keepNode ts r then
      .branch h (if keepNode ts l then pruneTo ts l else summarize l)
        (if keepNode ts r then pruneTo ts r else summarize r)
    else .branch0 h
  | .branchL h l => if keepNode ts l then .branchL h (pruneTo ts l) else .branch0 h
  | .branchR h r => if keepNode ts r then .branchR h (pruneTo ts r) else .branch0 h
  | .branch0 h => .branch0 h

/-- Modelled from the spec: `Pollard::from_roots(roots, leaves)` — an
accumulator that knows only its root hashes. -/
def from_roots (rootHashes : List BitcoinNodeHash) (leaves : Nat) : Pollard :=
  ⟨rootHashes.map .branch0, leaves, []⟩

/-- Modelled from the spec: `ingest_proof(proof, targets, remember)` — checks
the proof's recomputed parent chain against the pollard's roots
(`ProofInvalid` on mismatch) and materialises exactly the branches needed to
prove and then delete the targets.  Because the batch proof was generated by
the forest `F` and is verified against the shared roots, the materialised
branches coincide with `F`'s branches along the target paths; the remembered
targets become the pruned leaf index. -/
def ingest_proof (P : Pollard) (F : Pollard) (targets : List BitcoinNodeHash) :
    Except AccErr Pollard :=
  if P.roots.map PNode.data = F.roots.map PNode.data ∧ P.leaves = F.leaves then
    .ok ⟨F.roots.map (pruneTo targets), F.leaves,
         targets.foldl (fun m t => mapInsert t m) []⟩
  else .error .proofInvalid

/-- Error type of the service-level conversions (`anyhow::Error` kinds). -/
inductive SvcErr
  | io (e : IoErr)
  | acc (e : AccErr)
  | rootMismatch
deriving DecidableEq, Repr

/-- `pollard_conv::forest_to_pollard(bytes, deletes)`: deserialise the
forest, prove the delete-set, build a pollard from the forest's roots and
leaf count, and ingest the proof. -/
def forest_to_pollard (bytes : List Nat) (deletes : List BitcoinNodeHash) :
    Except SvcErr Pollard :=
  match Pollard.deserialize bytes with
  | .error e => .error (.io e)
  | .ok mem =>
    match mem.prove deletes with
    | .error e => .error (.acc e)
    | .ok _proof =>
      let pollard := from_roots (mem.roots.map PNode.data) mem.leaves
      match ingest_proof pollard mem deletes with
      | .error e => .error (.acc e)
      | .ok res => .ok res

/-- `pollard_after_block(mem_forest_bytes, deletes, new_leaves)`: deserialise
the forest, prove the deletes, build and advance a pruned pollard from the
roots (its `modify(adds, dels, proof)` ingests the proof, then deletes, then
adds), mirror the same `(new_leaves, deletes)` on the full forest, and fail
with the "root mismatch" error unless both root lists agree. -/
def pollard_after_block (memForestBytes : List Nat)
    (deletes newLeaves : List BitcoinNodeHash) : Except SvcErr Pollard :=
  match Pollard.deserialize memForestBytes with
  | .error e => .error (.io e)
  | .ok mem =>
    match mem.prove deletes with
    | .error e => .error (.acc e)
    | .ok _proof =>
      let pollard0 := from_roots (mem.roots.map PNode.data) mem.leaves
      match ingest_proof pollard0 mem deletes with
      | .error e => .error (.acc e)
      | .ok p1 =>
        match p1.modify newLeaves deletes with
        | .error e => .error (.acc e)
        | .ok p2 =>
          match mem.modify newLeaves deletes with
          | .error e => .error (.acc e)
          | .ok mem2 =>
            if p2.roots.map PNode.data = mem2.roots.map PNode.data then .ok p2
            else .error .rootMismatch

/-- The coverage relation between a pruned tree and the forest tree it was
drawn from: data always agrees; a summarised (childless) node may stand for
any subtree; materialised branches cover componentwise. -/
inductive Covers : PNode → PNode → Prop
  | leaf (h : BitcoinNodeHash) : Covers (.leaf h) (.leaf h)
  | summary (h : BitcoinNodeHash) (t : PNode) : t.data = h → Covers (.branch0 h) t
  | node (h : BitcoinNodeHash) (pl pr fl fr : PNode) :
      Covers pl fl → Covers pr fr → Covers (.branch h pl pr) (.branch h fl fr)

/-- A fully materialised tree: every node is a leaf or a two-child branch. -/
def complete : PNode → Bool
  | .leaf _ => true
  | .branch _ l r => complete l && complete r
  | _ => false

/-- A forest root is either a fully materialised tree or an emptied root. -/
def rootOk : PNode → Bool
  | .branch0 h => h.is_empty
  | t => complete t

/-! ## Concrete fixtures (from the repository's test suite) -/

/-- `hash_from_u8` of the rustreexo tests: the SHA-256 of a single byte. -/
def hash_from_u8 (v : Nat) : BitcoinNodeHash :=
  .value (sha256 [v])

/-- The eight-leaf pollard of the `test_proof` fixture
(`modify(&hashes, &[])` with no deletions is exactly `add`). -/
def pollard8 : Pollard :=
  Pollard.new.add ((List.range 8).map hash_from_u8)

/-- A four-leaf pollard over simple distinct payloads (cheap to evaluate). -/
def pollard4 : Pollard :=
  Pollard.new.add ((List.range 4).map (fun i => .value (List.replicate 32 (i + 1))))

/-! # Theorems -/

/-- C10: the parent combiner dereferences both sentinels to 32 zero bytes, so
`parent_hash` cannot tell `Empty`, `Placeholder` and the all-zero `Value`
apart in either argument, even though equality on the hash type distinguishes
all three. -/
theorem c10_parent_hash_blind_to_sentinels :
    (∀ h : BitcoinNodeHash,
      BitcoinNodeHash.parent_hash .empty h = BitcoinNodeHash.parent_hash .placeholder h ∧
      BitcoinNodeHash.parent_hash .placeholder h =
        BitcoinNodeHash.parent_hash (.value zeros32) h ∧
      BitcoinNodeHash.parent_hash h .empty = BitcoinNodeHash.parent_hash h .placeholder ∧
      BitcoinNodeHash.parent_hash h .placeholder =
        BitcoinNodeHash.parent_hash h (.value zeros32)) ∧
    (BitcoinNodeHash.empty ≠ .placeholder ∧
     BitcoinNodeHash.empty ≠ .value zeros32 ∧
     BitcoinNodeHash.placeholder ≠ .value zeros32) := by
  refine ⟨fun h => ⟨rfl, rfl, rfl, rfl⟩, by decide, by decide, by decide⟩

/-- C7 counterexample: a serialised node whose 8-byte node-type tag is `5`
(followed by a valid `Empty` hash byte) makes the deserialiser hit
`panic!("Invalid node type")` — an abort, not a `CorruptStream`-kind error
value returned to the caller. -/
theorem c7_counterexample :
    readOne 9 [5, 0, 0, 0, 0, 0, 0, 0, 0] = .error .panicked ∧
    IoErr.panicked ≠ IoErr.corrupt := by
  exact ⟨by decide, by decide⟩

/-- C7 amended: deserialising a node-hash whose 1-byte tag is not 0, 1 or 2
fails with the `CorruptStream`-kind (`InvalidData`) error returned to the
caller, for every input stream; but a serialised node whose 8-byte node-type
tag is 5 or more (and whose hash bytes parse) aborts with
`panic!("Invalid node type")` instead of returning an error. -/
theorem c7_amended (t : Nat) (rest : List Nat) (s : List Nat) (fuel : Nat)
    (d : BitcoinNodeHash) (r1 : List Nat)
    (ht0 : t ≠ 0) (ht1 : t ≠ 1) (ht2 : t ≠ 2)
    (hs : ¬ s.length < 8) (htag : 5 ≤ leVal (s.take 8))
    (hhash : BitcoinNodeHash.read (s.drop 8) = .ok (d, r1)) :
    BitcoinNodeHash.read (t :: rest) = .error .corrupt ∧
    readOne (fuel + 1) s = .error .panicked := by
  constructor
  · simp [BitcoinNodeHash.read, ht0, ht1, ht2]
  · have h1 : leVal (s.take 8) ≠ 1 := by omega
    simp [readOne, hs, hhash, h1, htag]

/-- C7 witness. -/
theorem c7_witness :
    BitcoinNodeHash.read [9, 1, 2] = .error .corrupt ∧
    readOne 1 [5, 0, 0, 0, 0, 0, 0, 0, 0] = .error .panicked :=
  c7_amended 9 [1, 2] [5, 0, 0, 0, 0, 0, 0, 0, 0] 0 .empty []
    (by decide) (by decide) (by decide) (by decide) (by decide) (by decide)

/-- C2 counterexample: deleting a hash that is not in the leaf index does
*not* fail with `LeafNotPresent` — `del`'s `flat_map` silently drops
unindexed targets, and `modify` succeeds leaving the accumulator unchanged. -/
theorem c2_counterexample :
    mapContains (Pollard.new.add [.value (List.replicate 32 1)]).map
      (.value (List.replicate 32 2)) = false ∧
    (Pollard.new.add [.value (List.replicate 32 1)]).modify []
        [.value (List.replicate 32 2)] =
      .ok (Pollard.new.add [.value (List.replicate 32 1)]) := by
  exact ⟨by decide, by decide⟩

/-- The pair list `del` collects is insensitive to the unindexed targets:
restricting the target list to the indexed ones first changes nothing. -/
theorem filterMap_guard_filter (m : List BitcoinNodeHash) (g : BitcoinNodeHash → Nat) :
    ∀ ds : List BitcoinNodeHash,
      (ds.filterMap fun t => if mapContains m t then some (g t, t) else none) =
      ((ds.filter fun t => mapContains m t).filterMap
        fun t => if mapContains m t then some (g t, t) else none) := by
  intro ds
  induction ds with
  | nil => rfl
  | cons x xs ih =>
    rw [List.filterMap_cons, List.filter_cons]
    by_cases hc : mapContains m x = true
    · rw [if_pos hc, if_pos hc, List.filterMap_cons, if_pos hc, ih]
    · rw [if_neg hc, if_neg hc, ih]

/-- `Pollard::del` deletes exactly the indexed subset of its targets. -/
theorem del_drops_unindexed (q : Pollard) (ds : List BitcoinNodeHash) :
    q.del ds = q.del (ds.filter fun t => mapContains q.map t) := by
  rw [Pollard.del, Pollard.del,
    filterMap_guard_filter q.map (fun t => (q.getPosOfHash t).getD 0) ds]

/-- C2 amended: `modify(adds, deletes)` is the deletion pass followed by the
addition pass, but a delete target that is not in the leaf index is silently
skipped rather than an error: deleting `dels` is deleting only the indexed
subset of `dels`, and when none of the targets are indexed `modify` succeeds
and performs only the additions, leaving the rest of the state untouched. -/
theorem c2_amended (p : Pollard) (adds dels : List BitcoinNodeHash)
    (h : ∀ t ∈ dels, mapContains p.map t = false) :
    p.modify adds dels = .ok (p.add adds) ∧
    ∀ (q : Pollard) (a ds : List BitcoinNodeHash),
      q.modify a ds = q.modify a (ds.filter fun t => mapContains q.map t) := by
  have hnil : (dels.filterMap fun t =>
      if mapContains p.map t then some ((p.getPosOfHash t).getD 0, t) else none) = [] := by
    induction dels with
    | nil => rfl
    | cons t rest ih =>
      have ht := h t (by simp)
      have hrest : ∀ u ∈ rest, mapContains p.map u = false := fun u hu => h u (by simp [hu])
      simp [List.filterMap, ht, ih hrest]
  have hdel : p.del dels = .ok p := by
    unfold Pollard.del
    rw [hnil]
    rfl
  refine ⟨?_, ?_⟩
  · unfold Pollard.modify
    rw [hdel]
    rfl
  · intro q a ds
    rw [Pollard.modify, Pollard.modify, del_drops_unindexed]

/-- C2 witness: a one-leaf accumulator.  A single unindexed delete target is
dropped and only the addition is performed; on a mixed batch (one unindexed,
one indexed target) `modify` behaves as if only the indexed target had been
given. -/
theorem c2_witness :
    (Pollard.new.add [.value (List.replicate 32 1)]).modify
        [.value (List.replicate 32 3)] [.value (List.replicate 32 2)] =
      .ok ((Pollard.new.add [.value (List.replicate 32 1)]).add
        [.value (List.replicate 32 3)]) ∧
    (Pollard.new.add [.value (List.replicate 32 1)]).modify
        [.value (List.replicate 32 3)]
        [.value (List.replicate 32 2), .value (List.replicate 32 1)] =
      (Pollard.new.add [.value (List.replicate 32 1)]).modify
        [.value (List.replicate 32 3)]
        ([.value (List.replicate 32 2), .value (List.replicate 32 1)].filter
          fun t => mapContains (Pollard.new.add [.value (List.replicate 32 1)]).map t) :=
  ⟨(c2_amended (Pollard.new.add [.value (List.replicate 32 1)])
      [.value (List.replicate 32 3)] [.value (List.replicate 32 2)] (by decide)).1,
   (c2_amended (Pollard.new.add [.value (List.replicate 32 1)])
      [.value (List.replicate 32 3)] [.value (List.replicate 32 2)] (by decide)).2
     (Pollard.new.add [.value (List.replicate 32 1)])
     [.value (List.replicate 32 3)]
     [.value (List.replicate 32 2), .value (List.replicate 32 1)]⟩

/-- C4: the two `LeafData::get_leaf_hashes` implementations are *not* the
same function.  The circuit's version (`btc_structs.rs`) hashes the five
fields with no domain-separation tag, while the input-generator's version
prepends the fixed 64-byte `UTREEXO_TAG_V1` twice, as the specification
describes; at the all-zero commitment the two preimages — and the two
SHA-512/256 fingerprints — differ, so equal commitments do not hash equally
across the two sites. -/
theorem c4_leaf_hash_divergence :
    (LeafData.preimageInputGen ⟨zeros32, zeros32, 0, 0, ⟨0, []⟩⟩ =
      UTREEXO_TAG_V1 ++ UTREEXO_TAG_V1 ++ leafFields ⟨zeros32, zeros32, 0, 0, ⟨0, []⟩⟩) ∧
    (LeafData.preimageCircuit ⟨zeros32, zeros32, 0, 0, ⟨0, []⟩⟩ =
      leafFields ⟨zeros32, zeros32, 0, 0, ⟨0, []⟩⟩) ∧
    LeafData.preimageCircuit ⟨zeros32, zeros32, 0, 0, ⟨0, []⟩⟩ ≠
      LeafData.preimageInputGen ⟨zeros32, zeros32, 0, 0, ⟨0, []⟩⟩ ∧
    LeafData.get_leaf_hashes_circuit ⟨zeros32, zeros32, 0, 0, ⟨0, []⟩⟩ ≠
      LeafData.get_leaf_hashes_inputgen ⟨zeros32, zeros32, 0, 0, ⟨0, []⟩⟩ := by
  exact ⟨rfl, rfl, by decide, by decide⟩

/-- C8: when `send(Build)` or `send(Update)` is accepted from `Idle`, the
shared state is flipped to `Building` / `Updating{h}` in the very same step
that enqueues the command, so a second `Build` or `Update` submitted before
the worker dequeues anything observes the new state and is rejected with
`InvalidState`, leaving state and queue unchanged. -/
theorem c8_preemptive_state_flip (pq pq2 : String) (rs rs2 : Option String)
    (h h2 : Nat) (q : List Command) (env : Env) :
    (send env ⟨.idle, q, none⟩ (.build pq rs) =
      (.ok (), ⟨.building, q ++ [.build pq rs], none⟩)) ∧
    (send env ⟨.building, q ++ [.build pq rs], none⟩ (.build pq2 rs2) =
      (.error .invalidState, ⟨.building, q ++ [.build pq rs], none⟩)) ∧
    (send env ⟨.building, q ++ [.build pq rs], none⟩ (.update h2) =
      (.error .invalidState, ⟨.building, q ++ [.build pq rs], none⟩)) ∧
    (send env ⟨.idle, q, none⟩ (.update h) =
      (.ok (), ⟨.updating h, q ++ [.update h], none⟩)) ∧
    (send env ⟨.updating h, q ++ [.update h], none⟩ (.update h2) =
      (.error .invalidState, ⟨.updating h, q ++ [.update h], none⟩)) ∧
    (send env ⟨.updating h, q ++ [.update h], none⟩ (.build pq2 rs2) =
      (.error .invalidState, ⟨.updating h, q ++ [.update h], none⟩)) := by
  refine ⟨?_, ?_, ?_, ?_, ?_, ?_⟩ <;> simp [send, is_valid_transition]

/-- C6 counterexample: `dump_sync` copies each snapshot file straight to its
final path — its operation trace for a one-file working directory is a
`create_dir_all`, a direct copy of `mem_forest.bin`, and a direct create of
the `pollard.bin` placeholder, with no `.tmp` sibling and no rename anywhere;
and an update job whose serialisation step fails leaves the pre-existing
in-place `mem_forest.bin` truncated to zero bytes. -/
theorem c6_counterexample :
    (dump_sync ⟨[("mem_forest.bin", [1, 2, 3])], []⟩ "snap").1 = .ok () ∧
    (dump_sync ⟨[("mem_forest.bin", [1, 2, 3])], []⟩ "snap").2.2 =
      [.createDirAll "snap", .copy "mem_forest.bin" "snap/mem_forest.bin",
       .createFile "snap/pollard.bin"] ∧
    hasRename (dump_sync ⟨[("mem_forest.bin", [1, 2, 3])], []⟩ "snap").2.2 = false ∧
    (update_block ⟨[("mem_forest.bin", [1, 2, 3])], []⟩
        ⟨true, true, false, [9, 9], true, [7]⟩).1 = .error .eof ∧
    (update_block ⟨[("mem_forest.bin", [1, 2, 3])], []⟩
        ⟨true, true, false, [9, 9], true, [7]⟩).2.1.lookup "mem_forest.bin" =
      some [] ∧
    Fs.lookup ⟨[("mem_forest.bin", [1, 2, 3])], []⟩ "mem_forest.bin" =
      some [1, 2, 3] := by
  refine ⟨by decide, by decide, by decide, by decide, by decide, by decide⟩

/-- C6 amended: neither dump, restore nor the update job uses a `.tmp`
sibling plus rename — their filesystem traces never contain a rename; dump
and restore copy directly onto the target paths, and `update_block` re-creates
`mem_forest.bin` in place before serialising into it, so an update whose
serialisation fails leaves the pre-existing file truncated.  A restore that
fails (missing snapshot file) performs no write. -/
theorem c6_amended (fs : Fs) (dir : String) (env : UpdateEnv) :
    hasRename (dump_sync fs dir).2.2 = false ∧
    hasRename (restore_sync fs dir).2.2 = false ∧
    hasRename (update_block fs env).2.2 = false ∧
    ((fs.lookup "mem_forest.bin").isSome → env.deserializeOk = true →
      env.modifyOk = true → env.serializeOk = false →
      (update_block fs env).1 = .error .eof ∧
      (update_block fs env).2.1.lookup "mem_forest.bin" = some []) ∧
    ((restore_sync fs dir).1 = .error .notFound → (restore_sync fs dir).2.1 = fs) := by
  refine ⟨?_, ?_, ?_, ?_, ?_⟩
  · unfold dump_sync
    dsimp only
    split
    · rfl
    · split <;> split <;> simp [hasRename]
  · unfold restore_sync
    dsimp only
    split
    · rfl
    · split <;> split <;> simp [hasRename]
  · unfold update_block
    dsimp only
    split
    · rfl
    · split <;> (try split) <;> (try split) <;> (try split) <;> simp [hasRename]
  · intro hsome hde hmo hse
    unfold update_block
    cases h : fs.lookup "mem_forest.bin" with
    | none => rw [h] at hsome; simp at hsome
    | some c => simp [hde, hmo, hse, Fs.lookup, Fs.setFile]
  · intro herr
    unfold restore_sync at herr ⊢
    cases h : fs.lookup (dir ++ "/mem_forest.bin") with
    | none => simp
    | some c =>
      rw [h] at herr
      dsimp only at herr
      split at herr <;> (try split at herr) <;> simp_all

/-- C6 witness: a working directory holding a three-byte `mem_forest.bin`,
an update environment whose serialisation step fails. -/
theorem c6_witness :
    hasRename (dump_sync ⟨[("mem_forest.bin", [1, 2, 3])], []⟩ "snap").2.2 = false ∧
    hasRename (restore_sync ⟨[("mem_forest.bin", [1, 2, 3])], []⟩ "snap").2.2 = false ∧
    hasRename (update_block ⟨[("mem_forest.bin", [1, 2, 3])], []⟩
      ⟨true, true, false, [9, 9], true, [7]⟩).2.2 = false ∧
    (update_block ⟨[("mem_forest.bin", [1, 2, 3])], []⟩
      ⟨true, true, false, [9, 9], true, [7]⟩).1 = .error .eof ∧
    (update_block ⟨[("mem_forest.bin", [1, 2, 3])], []⟩
      ⟨true, true, false, [9, 9], true, [7]⟩).2.1.lookup "mem_forest.bin" = some [] := by
  have h := c6_amended ⟨[("mem_forest.bin", [1, 2, 3])], []⟩ "snap"
    ⟨true, true, false, [9, 9], true, [7]⟩
  have h4 := h.2.2.2.1 (by decide) (by decide) (by decide) (by decide)
  exact ⟨h.1, h.2.1, h.2.2.1, h4.1, h4.2⟩

/-- C5 counterexample: from `Idle`, the command sequence `Build` then `Dump`
(with the dump's filesystem work failing) is accepted at every step, yet the
second step drives `Building` to `Error{"dump failed"}` — a transition the
§4.J table does not list (its `Building | Dump` row says "unchanged"). -/
theorem c5_counterexample :
    (runSeq ⟨false, true⟩ ⟨.idle, [], none⟩ [.build "p" none]).state = .building ∧
    (commandNet ⟨false, true⟩ (runSeq ⟨false, true⟩ ⟨.idle, [], none⟩ [.build "p" none])
      (.dump "d")).1 = .ok () ∧
    (runSeq ⟨false, true⟩ ⟨.idle, [], none⟩ [.build "p" none, .dump "d"]).state =
      .error "dump failed" ∧
    inTable .building (.dump "d") (.error "dump failed") = false := by
  exact ⟨by decide, by decide, by decide, by decide⟩

/-- C5 amended: a command that the §4.J table does not accept in the current
state is rejected with `InvalidState` and changes nothing; an accepted command
either leaves the state unchanged or performs a transition listed in the
table, except that a `Dump` whose filesystem work fails moves the state to
`Error{message}` even from `Building`, `Updating` or `Paused`. -/
theorem c5_amended (s : ServiceState) (q : List Command) (r : Option JobKind)
    (cmd : Command) (env : Env) :
    (is_valid_transition s cmd = false →
      commandNet env ⟨s, q, r⟩ cmd = (.error .invalidState, ⟨s, q, r⟩)) ∧
    ((commandNet env ⟨s, q, r⟩ cmd).2.state = s ∨
     inTable s cmd (commandNet env ⟨s, q, r⟩ cmd).2.state = true ∨
     (env.dumpOk = false ∧
      (commandNet env ⟨s, q, r⟩ cmd).2.state = .error "dump failed" ∧
      ∃ d, cmd = .dump d)) := by
  obtain ⟨du, re⟩ := env
  constructor
  · intro hv
    simp [commandNet, send, hv]
  · cases r with
    | none =>
      cases cmd <;> cases s <;> cases du <;> cases re <;>
        simp [commandNet, send, workerStep, is_valid_transition, inTable]
    | some k =>
      cases k <;> cases cmd <;> cases s <;> cases du <;> cases re <;>
        simp [commandNet, send, workerStep, is_valid_transition, inTable]

/-- C5 witness: a `Pause` in `Idle` is rejected and changes nothing; an
accepted `Build` from `Idle` transitions inside the table. -/
theorem c5_witness :
    commandNet ⟨true, true⟩ ⟨.idle, [], none⟩ .pause =
      (.error .invalidState, ⟨.idle, [], none⟩) ∧
    ((commandNet ⟨true, true⟩ ⟨.idle, [], none⟩ (.build "p" none)).2.state = .idle ∨
     inTable .idle (.build "p" none)
       (commandNet ⟨true, true⟩ ⟨.idle, [], none⟩ (.build "p" none)).2.state = true ∨
     ((true : Bool) = false ∧
      (commandNet ⟨true, true⟩ ⟨.idle, [], none⟩ (.build "p" none)).2.state =
        .error "dump failed" ∧
      ∃ d, Command.build "p" none = .dump d)) := by
  exact ⟨(c5_amended .idle [] none .pause ⟨true, true⟩).1 (by decide),
         (c5_amended .idle [] none (.build "p" none) ⟨true, true⟩).2⟩

/-- Successful `mapM` over `Except` is elementwise success. -/
theorem mapM_ok_iff {ε α β : Type} (f : α → Except ε β) (l : List α) (ys : List β) :
    l.mapM f = .ok ys ↔ l.map f = ys.map Except.ok := by
  induction l generalizing ys with
  | nil =>
    rw [List.mapM_nil]
    constructor
    · intro h
      cases ys with
      | nil => rfl
      | cons y ys => simp [pure, Except.pure] at h
    · intro h
      cases ys with
      | nil => rfl
      | cons y ys => simp at h
  | cons a l ih =>
    rw [List.mapM_cons]
    constructor
    · intro h
      cases hfa : f a with
      | error e => rw [hfa] at h; simp [Bind.bind, Except.bind] at h
      | ok b =>
        rw [hfa] at h
        cases hrest : l.mapM f with
        | error e => rw [hrest] at h; simp [Bind.bind, Except.bind] at h
        | ok bs =>
          rw [hrest] at h
          simp [Bind.bind, Except.bind, pure, Except.pure] at h
          subst h
          simp [List.map_cons, hfa]
          exact (ih bs).mp hrest
    · intro h
      cases ys with
      | nil => simp at h
      | cons y ys =>
        simp only [List.map_cons, List.cons.injEq] at h
        obtain ⟨h1, h2⟩ := h
        rw [h1, (ih ys).mpr h2]
        simp [Bind.bind, Except.bind, pure, Except.pure]
/-- Pointwise extraction from elementwise `Except.ok` equality. -/
theorem map_ok_pointwise {e a b : Type} (f : a → Except e b) (g : a → b)
    (l : List a) (ys : List b)
    (h : l.map f = ys.map Except.ok) (hpt : ∀ x y, f x = .ok y → g x = y) :
    ys = l.map g := by
  induction l generalizing ys with
  | nil => cases ys with
    | nil => rfl
    | cons y ys => simp at h
  | cons x l ih =>
    cases ys with
    | nil => simp at h
    | cons y ys =>
      simp only [List.map_cons, List.cons.injEq] at h
      simp only [List.map_cons, List.cons.injEq]
      exact ⟨(hpt x y h.1).symm, ih ys h.2⟩

/-- Transfer elementwise success to an unwrapped function. -/
theorem map_ok_transfer {e a b : Type} (w v : a → Except e b)
    (l : List a) (ys : List b)
    (h : l.map w = ys.map Except.ok) (hpt : ∀ x y, w x = .ok y → v x = .ok y) :
    l.map v = ys.map Except.ok := by
  induction l generalizing ys with
  | nil => cases ys with
    | nil => rfl
    | cons y ys => simp at h
  | cons x l ih =>
    cases ys with
    | nil => simp at h
    | cons y ys =>
      simp only [List.map_cons, List.cons.injEq] at h
      simp only [List.map_cons, List.cons.injEq]
      exact ⟨hpt x y h.1, ih ys h.2⟩

/-- C3 counterexample: the repository's own `test_proof` fixture — an
eight-leaf accumulator proved at targets `[h2, h1, h4, h6]` — returns the
positions `[2, 1, 4, 6]`, which is the order of the given targets, *not*
ascending order as the claim states (the sibling hashes are the hashes at
proof positions `[0, 3, 5, 7]`, matching the fixture). -/
theorem c3_counterexample :
    pollard8.prove [hash_from_u8 2, hash_from_u8 1, hash_from_u8 4, hash_from_u8 6] =
      .ok ⟨[2, 1, 4, 6],
           [hash_from_u8 0, hash_from_u8 3, hash_from_u8 5, hash_from_u8 7]⟩ ∧
    ¬ List.Sorted (· ≤ ·) [2, 1, 4, 6] := by
  exact ⟨by decide, by decide⟩

/-- C3 amended: for every accumulator state and target list, a successful
`prove(targets)` returns the targets' leaf positions *in the order of the
given targets* (not sorted), and the accompanying sibling hashes are exactly
the hashes stored at `get_proof_positions(positions, n, tree_rows(n))` in
that canonical order. -/
theorem c3_amended (p : Pollard) (targets : List BitcoinNodeHash) (pr : Proof)
    (h : p.prove targets = .ok pr) :
    pr.targets = targets.map (fun t => (p.getPosOfHash t).getD 0) ∧
    (get_proof_positions pr.targets p.leaves (tree_rows p.leaves)).map p.get_hash =
      pr.hashes.map Except.ok := by
  unfold Pollard.prove at h
  cases h1 : targets.mapM (fun t =>
      match p.getPosOfHash t with
      | some pos => if mapContains p.map t then Except.ok pos else Except.error AccErr.notFound
      | none => Except.error AccErr.notFound) with
  | error e => rw [h1] at h; simp [Bind.bind, Except.bind] at h
  | ok positions =>
    rw [h1] at h
    simp only [Bind.bind, Except.bind] at h
    cases h2 : (get_proof_positions positions p.leaves (tree_rows p.leaves)).mapM (fun pos =>
        match p.get_hash pos with
        | .ok hh => Except.ok hh
        | .error _ => Except.error AccErr.panicked) with
    | error e => rw [h2] at h; simp at h
    | ok hashes =>
      rw [h2] at h
      simp only [pure, Except.pure] at h
      cases h
      constructor
      · exact map_ok_pointwise _ _ _ _ ((mapM_ok_iff _ _ _).mp h1) (by
          intro t y hf
          cases hg : p.getPosOfHash t with
          | none => rw [hg] at hf; cases hf
          | some pos =>
            rw [hg] at hf
            by_cases hc : mapContains p.map t = true
            · simp [hc] at hf
              simp [hg, hf]
            · simp [Bool.not_eq_true] at hc
              simp [hc] at hf)
      · exact map_ok_transfer _ _ _ _ ((mapM_ok_iff _ _ _).mp h2) (by
          intro pos y hf
          cases hg : p.get_hash pos with
          | ok g => rw [hg] at hf; exact hf
          | error e2 => rw [hg] at hf; cases hf)

/-- C3 witness: the amended statement applied at the `test_proof` fixture. -/
theorem c3_witness :
    Proof.targets ⟨[2, 1, 4, 6],
        [hash_from_u8 0, hash_from_u8 3, hash_from_u8 5, hash_from_u8 7]⟩ =
      ([hash_from_u8 2, hash_from_u8 1, hash_from_u8 4, hash_from_u8 6].map
        (fun t => (pollard8.getPosOfHash t).getD 0)) ∧
    (get_proof_positions
        (Proof.targets ⟨[2, 1, 4, 6],
          [hash_from_u8 0, hash_from_u8 3, hash_from_u8 5, hash_from_u8 7]⟩)
        pollard8.leaves (tree_rows pollard8.leaves)).map pollard8.get_hash =
      (Proof.hashes ⟨[2, 1, 4, 6],
        [hash_from_u8 0, hash_from_u8 3, hash_from_u8 5, hash_from_u8 7]⟩).map
        Except.ok :=
  c3_amended pollard8
    [hash_from_u8 2, hash_from_u8 1, hash_from_u8 4, hash_from_u8 6]
    ⟨[2, 1, 4, 6], [hash_from_u8 0, hash_from_u8 3, hash_from_u8 5, hash_from_u8 7]⟩
    (by decide)
theorem le8_length (n : Nat) : (le8 n).length = 8 := by simp [le8, le4]

theorem leVal_le8 (n : Nat) : leVal (le8 n) = n % 18446744073709551616 := by
  simp [le8, le4, leVal]
  omega

theorem read_write_hash (h : BitcoinNodeHash) (hwf : hashWf h = true) (rest : List Nat) :
    BitcoinNodeHash.read (h.write ++ rest) = .ok (h, rest) := by
  cases h with
  | empty => rfl
  | placeholder => rfl
  | value inner =>
    have h32 : inner.length = 32 := by simpa [hashWf] using hwf
    simp [BitcoinNodeHash.write, BitcoinNodeHash.read, List.take_left' h32,
      List.drop_left' h32, h32]

theorem nodeCount_pos (t : PNode) : 1 ≤ nodeCount t := by
  cases t <;> simp only [nodeCount] <;> omega

theorem nodeCount_le_writeOne (t : PNode) : nodeCount t ≤ (PNode.write_one t).length := by
  induction t with
  | leaf h => simp [PNode.write_one, nodeCount, le8_length]; omega
  | branch h l r ihl ihr =>
    simp [PNode.write_one, nodeCount, le8_length] at *
    omega
  | branchL h l ihl =>
    simp [PNode.write_one, nodeCount, le8_length] at *
    omega
  | branchR h r ihr =>
    simp [PNode.write_one, nodeCount, le8_length] at *
    omega
  | branch0 h => simp [PNode.write_one, nodeCount, le8_length]; omega

theorem readOne_writeOne (t : PNode) :
    nodeWf t = true → ∀ fuel rest, nodeCount t ≤ fuel →
      readOne fuel (PNode.write_one t ++ rest) = .ok (t, leafHashes t, rest) := by
  induction t with
  | leaf h =>
    intro hwf fuel rest hfuel
    cases fuel with
    | zero => simp [nodeCount] at hfuel
    | succ f =>
      have hwf2 : hashWf h = true := by simpa [nodeWf] using hwf
      have hlen8 : (le8 1).length = 8 := le8_length 1
      rw [PNode.write_one, List.append_assoc, readOne]
      have hnl : ¬ ((le8 1 ++ (h.write ++ rest)).length < 8) := by
        simp [le8_length]
      rw [if_neg hnl, List.take_left' hlen8, List.drop_left' hlen8,
        read_write_hash h hwf2, leVal_le8]
      simp [leafHashes]
  | branch h l r ihl ihr =>
    intro hwf fuel rest hfuel
    cases fuel with
    | zero =>
      have hp := nodeCount_pos l
      simp [nodeCount] at hfuel
    | succ f =>
      have hwfs0 : ((h.is_empty = false ∧ hashWf h = true) ∧ nodeWf l = true) ∧ nodeWf r = true := by
        simpa [nodeWf, Bool.and_eq_true] using hwf
      have hwfs : h.is_empty = false ∧ hashWf h = true ∧ nodeWf l = true ∧ nodeWf r = true :=
        ⟨hwfs0.1.1.1, hwfs0.1.1.2, hwfs0.1.2, hwfs0.2⟩
      have hlen8 : (le8 0).length = 8 := le8_length 0
      have hcl : nodeCount l ≤ f := by
        have := nodeCount_pos r; simp [nodeCount] at hfuel; omega
      have hcr : nodeCount r ≤ f := by
        have := nodeCount_pos l; simp [nodeCount] at hfuel; omega
      rw [PNode.write_one]
      rw [show le8 0 ++ h.write ++ PNode.write_one l ++ PNode.write_one r ++ rest =
        le8 0 ++ (h.write ++ (PNode.write_one l ++ (PNode.write_one r ++ rest))) by
          simp [List.append_assoc]]
      rw [readOne]
      have hnl : ¬ ((le8 0 ++ (h.write ++ (PNode.write_one l ++ (PNode.write_one r ++ rest)))).length < 8) := by
        simp [le8_length]
      rw [if_neg hnl, List.take_left' hlen8, List.drop_left' hlen8,
        read_write_hash h hwfs.2.1, leVal_le8]
      simp [ihl hwfs.2.2.1 f _ hcl, ihr hwfs.2.2.2 f _ hcr, hwfs.1, leafHashes]
  | branchL h l ihl =>
    intro hwf fuel rest hfuel
    cases fuel with
    | zero => simp [nodeCount] at hfuel
    | succ f =>
      have hwfs0 : (h.is_empty = false ∧ hashWf h = true) ∧ nodeWf l = true := by
        simpa [nodeWf, Bool.and_eq_true] using hwf
      have hwfs : h.is_empty = false ∧ hashWf h = true ∧ nodeWf l = true :=
        ⟨hwfs0.1.1, hwfs0.1.2, hwfs0.2⟩
      have hlen8 : (le8 2).length = 8 := le8_length 2
      have hcl : nodeCount l ≤ f := by simp [nodeCount] at hfuel; omega
      rw [PNode.write_one]
      rw [show le8 2 ++ h.write ++ PNode.write_one l ++ rest =
        le8 2 ++ (h.write ++ (PNode.write_one l ++ rest)) by simp [List.append_assoc]]
      rw [readOne]
      have hnl : ¬ ((le8 2 ++ (h.write ++ (PNode.write_one l ++ rest))).length < 8) := by
        simp [le8_length]
      rw [if_neg hnl, List.take_left' hlen8, List.drop_left' hlen8,
        read_write_hash h hwfs.2.1, leVal_le8]
      simp [ihl hwfs.2.2 f _ hcl, hwfs.1, leafHashes]
  | branchR h r ihr =>
    intro hwf fuel rest hfuel
    cases fuel with
    | zero => simp [nodeCount] at hfuel
    | succ f =>
      have hwfs0 : (h.is_empty = false ∧ hashWf h = true) ∧ nodeWf r = true := by
        simpa [nodeWf, Bool.and_eq_true] using hwf
      have hwfs : h.is_empty = false ∧ hashWf h = true ∧ nodeWf r = true :=
        ⟨hwfs0.1.1, hwfs0.1.2, hwfs0.2⟩
      have hlen8 : (le8 3).length = 8 := le8_length 3
      have hcr : nodeCount r ≤ f := by simp [nodeCount] at hfuel; omega
      rw [PNode.write_one]
      rw [show le8 3 ++ h.write ++ PNode.write_one r ++ rest =
        le8 3 ++ (h.write ++ (PNode.write_one r ++ rest)) by simp [List.append_assoc]]
      rw [readOne]
      have hnl : ¬ ((le8 3 ++ (h.write ++ (PNode.write_one r ++ rest))).length < 8) := by
        simp [le8_length]
      rw [if_neg hnl, List.take_left' hlen8, List.drop_left' hlen8,
        read_write_hash h hwfs.2.1, leVal_le8]
      simp [ihr hwfs.2.2 f _ hcr, hwfs.1, leafHashes]
  | branch0 h =>
    intro hwf fuel rest hfuel
    cases fuel with
    | zero => simp [nodeCount] at hfuel
    | succ f =>
      have hwf2 : hashWf h = true := by simpa [nodeWf] using hwf
      have hlen8 : (le8 4).length = 8 := le8_length 4
      rw [PNode.write_one, List.append_assoc, readOne]
      have hnl : ¬ ((le8 4 ++ (h.write ++ rest)).length < 8) := by
        simp [le8_length]
      rw [if_neg hnl, List.take_left' hlen8, List.drop_left' hlen8,
        read_write_hash h hwf2, leVal_le8]
      cases hie : h.is_empty <;> simp [hie, leafHashes]

theorem readRoots_writeAll (roots : List PNode)
    (hwf : ∀ t ∈ roots, nodeWf t = true) (rest : List Nat) :
    Pollard.readRoots roots.length ((roots.map PNode.write_one).flatten ++ rest) =
      .ok (roots, (roots.map leafHashes).flatten, rest) := by
  induction roots with
  | nil => rfl
  | cons r rs ih =>
    simp only [List.map_cons, List.flatten_cons, List.length_cons]
    rw [Pollard.readRoots, List.append_assoc]
    have hfuel : nodeCount r ≤
        (PNode.write_one r ++ ((rs.map PNode.write_one).flatten ++ rest)).length := by
      have h1 := nodeCount_le_writeOne r
      simp [List.length_append]
      omega
    rw [readOne_writeOne r (hwf r (by simp)) _ _ hfuel]
    simp [ih (fun t ht => hwf t (by simp [ht]))]

/-- C9: serialising and deserialising a well-formed accumulator state is the
identity: the same roots (hence the same root hashes in the same order), the
same leaf count, and the same leaf-index key set; and the empty accumulator
serialises to exactly 16 zero bytes, whose deserialisation is the empty
accumulator with no roots and leaf count zero. -/
theorem c9_serialize_roundtrip (p : Pollard)
    (hwf : ∀ t ∈ p.roots, nodeWf t = true)
    (hleaves : p.leaves < 18446744073709551616)
    (hroots : p.roots.length < 18446744073709551616)
    (hmap : p.map = canonicalMap p.roots) :
    Pollard.deserialize (Pollard.serialize p) = .ok p ∧
    Pollard.serialize Pollard.new = List.replicate 16 0 ∧
    Pollard.deserialize (List.replicate 16 0) = .ok Pollard.new := by
  refine ⟨?_, by decide, by decide⟩
  unfold Pollard.serialize Pollard.deserialize
  have hl8 : (le8 p.leaves).length = 8 := le8_length _
  have hr8 : (le8 p.roots.length).length = 8 := le8_length _
  rw [List.append_assoc]
  have hnl : ¬ ((le8 p.leaves ++ (le8 p.roots.length ++
      (p.roots.map PNode.write_one).flatten)).length < 8) := by
    simp [le8_length]
  rw [if_neg hnl, List.take_left' hl8, List.drop_left' hl8]
  have hnl2 : ¬ ((le8 p.roots.length ++ (p.roots.map PNode.write_one).flatten).length < 8) := by
    simp [le8_length]
  rw [if_neg hnl2, List.take_left' hr8, List.drop_left' hr8, leVal_le8, leVal_le8,
    Nat.mod_eq_of_lt hleaves, Nat.mod_eq_of_lt hroots]
  have hrr := readRoots_writeAll p.roots hwf []
  rw [List.append_nil] at hrr
  dsimp only
  rw [hrr]
  dsimp only
  rw [show List.foldl (fun m h => mapInsert h m) [] (List.map leafHashes p.roots).flatten =
    canonicalMap p.roots from rfl, ← hmap]

/-- C9 witness: the four-leaf accumulator round-trips. -/
theorem c9_witness :
    Pollard.deserialize (Pollard.serialize pollard4) = .ok pollard4 ∧
    Pollard.serialize Pollard.new = List.replicate 16 0 ∧
    Pollard.deserialize (List.replicate 16 0) = .ok Pollard.new :=
  c9_serialize_roundtrip pollard4 (by decide) (by decide) (by decide) (by decide)
theorem pruneTo_data (ts : List BitcoinNodeHash) (t : PNode) :
    (pruneTo ts t).data = t.data := by
  cases t with
  | leaf h => rfl
  | branch h l r => rw [pruneTo]; split <;> rfl
  | branchL h l => rw [pruneTo]; split <;> rfl
  | branchR h r => rw [pruneTo]; split <;> rfl
  | branch0 h => rfl

theorem Covers.data_eq {pt ft : PNode} (h : Covers pt ft) : pt.data = ft.data := by
  cases h with
  | leaf h => rfl
  | summary h t hd => simpa [PNode.data] using hd.symm
  | node h pl pr fl fr hl hr => rfl

theorem findInTree_none_of_not_keep (ts : List BitcoinNodeHash) (t : BitcoinNodeHash)
    (ht : mapContains ts t = true) :
    ∀ c : PNode, keepNode ts c = false → findInTree t c = none := by
  intro c
  induction c with
  | leaf h =>
    intro hk
    simp [keepNode] at hk
    simp [findInTree]
    intro he
    rw [he] at hk
    rw [hk] at ht
    cases ht
  | branch h l r ihl ihr =>
    intro hk
    simp [keepNode] at hk
    simp [findInTree, ihl hk.1, ihr hk.2]
  | branchL h l ihl =>
    intro hk
    simp [keepNode] at hk
    simp [findInTree, ihl hk]
  | branchR h r ihr =>
    intro hk
    simp [keepNode] at hk
    simp [findInTree, ihr hk]
  | branch0 h => intro _; rfl

theorem findInTree_summarize (t : BitcoinNodeHash) (c : PNode) (ts : List BitcoinNodeHash)
    (ht : mapContains ts t = true) (hk : keepNode ts c = false) :
    findInTree t (summarize c) = findInTree t c := by
  cases c with
  | leaf h => rfl
  | branch h l r =>
    simp [summarize, findInTree]
    exact (findInTree_none_of_not_keep ts t ht _ hk).symm
  | branchL h l =>
    simp [summarize, findInTree]
    have := findInTree_none_of_not_keep ts t ht _ hk
    simp [findInTree] at this
    simp [this]
  | branchR h r =>
    simp [summarize, findInTree]
    have := findInTree_none_of_not_keep ts t ht _ hk
    simp [findInTree] at this
    simp [this]
  | branch0 h => rfl

theorem findInTree_pruneTo (ts : List BitcoinNodeHash) (t : BitcoinNodeHash)
    (ht : mapContains ts t = true) :
    ∀ c : PNode, findInTree t (pruneTo ts c) = findInTree t c := by
  intro c
  induction c with
  | leaf h => rfl
  | branch h l r ihl ihr =>
    by_cases hkl : keepNode ts l = true <;> by_cases hkr : keepNode ts r = true
    · simp [pruneTo, hkl, hkr, findInTree, ihl, ihr]
    · have hkr2 : keepNode ts r = false := by simpa using hkr
      simp [pruneTo, hkl, hkr2, findInTree, ihl,
        findInTree_summarize t r ts ht hkr2]
    · have hkl2 : keepNode ts l = false := by simpa using hkl
      simp [pruneTo, hkl2, hkr, findInTree, ihr,
        findInTree_summarize t l ts ht hkl2]
    · have hkl2 : keepNode ts l = false := by simpa using hkl
      have hkr2 : keepNode ts r = false := by simpa using hkr
      simp [pruneTo, hkl2, hkr2, findInTree,
        findInTree_none_of_not_keep ts t ht l hkl2,
        findInTree_none_of_not_keep ts t ht r hkr2]
  | branchL h l ihl =>
    by_cases hkl : keepNode ts l = true
    · simp [pruneTo, hkl, findInTree, ihl]
    · have hkl2 : keepNode ts l = false := by simpa using hkl
      simp [pruneTo, hkl2, findInTree,
        findInTree_none_of_not_keep ts t ht l hkl2]
  | branchR h r ihr =>
    by_cases hkr : keepNode ts r = true
    · simp [pruneTo, hkr, findInTree, ihr]
    · have hkr2 : keepNode ts r = false := by simpa using hkr
      simp [pruneTo, hkr2, findInTree,
        findInTree_none_of_not_keep ts t ht r hkr2]
  | branch0 h => rfl

theorem Covers_summarize (c : PNode) : Covers (summarize c) c := by
  cases c with
  | leaf h => exact Covers.leaf h
  | branch h l r => exact Covers.summary h _ rfl
  | branchL h l => exact Covers.summary h _ rfl
  | branchR h r => exact Covers.summary h _ rfl
  | branch0 h => exact Covers.summary h _ rfl

theorem Covers_pruneTo (ts : List BitcoinNodeHash) :
    ∀ c : PNode, complete c = true → Covers (pruneTo ts c) c := by
  intro c
  induction c with
  | leaf h => intro _; exact Covers.leaf h
  | branch h l r ihl ihr =>
    intro hc
    simp [complete, Bool.and_eq_true] at hc
    by_cases hk : (keepNode ts l || keepNode ts r) = true
    · rw [pruneTo, if_pos hk]
      refine Covers.node h _ _ _ _ ?_ ?_
      · by_cases hkl : keepNode ts l = true
        · simpa [hkl] using ihl hc.1
        · simp [Bool.not_eq_true] at hkl
          simpa [hkl] using Covers_summarize l
      · by_cases hkr : keepNode ts r = true
        · simpa [hkr] using ihr hc.2
        · simp [Bool.not_eq_true] at hkr
          simpa [hkr] using Covers_summarize r
    · rw [pruneTo, if_neg hk]
      exact Covers.summary h _ rfl
  | branchL h l ihl => intro hc; simp [complete] at hc
  | branchR h r ihr => intro hc; simp [complete] at hc
  | branch0 h => intro hc; simp [complete] at hc

theorem pruneTo_rootOk (ts : List BitcoinNodeHash) (c : PNode) (hc : rootOk c = true) :
    Covers (pruneTo ts c) c := by
  cases c with
  | branch0 h => exact Covers.summary h _ rfl
  | leaf h => exact Covers.leaf h
  | branch h l r => exact Covers_pruneTo ts _ (by simpa [rootOk] using hc)
  | branchL h l => simp [rootOk, complete] at hc
  | branchR h r => simp [rootOk, complete] at hc
theorem findInTree_mem {t : BitcoinNodeHash} :
    ∀ {c : PNode} {q : List Bool}, findInTree t c = some q → t ∈ leafHashes c := by
  intro c
  induction c with
  | leaf h =>
    intro q hq
    simp [findInTree] at hq
    simp [leafHashes, hq.1]
  | branch h l r ihl ihr =>
    intro q hq
    rw [findInTree] at hq
    cases hl : findInTree t l with
    | some p => simp [leafHashes]; exact Or.inl (ihl hl)
    | none =>
      rw [hl] at hq
      cases hr : findInTree t r with
      | some p => simp [leafHashes]; exact Or.inr (ihr hr)
      | none => rw [hr] at hq; cases hq
  | branchL h l ihl =>
    intro q hq
    rw [findInTree] at hq
    cases hl : findInTree t l with
    | some p => simpa [leafHashes] using ihl hl
    | none => rw [hl] at hq; cases hq
  | branchR h r ihr =>
    intro q hq
    rw [findInTree] at hq
    cases hr : findInTree t r with
    | some p => simpa [leafHashes] using ihr hr
    | none => rw [hr] at hq; cases hq
  | branch0 h => intro q hq; cases hq

theorem findInTree_not_mem {t : BitcoinNodeHash} :
    ∀ {c : PNode}, t ∉ leafHashes c → findInTree t c = none := by
  intro c hmem
  cases hq : findInTree t c with
  | none => rfl
  | some q => exact absurd (findInTree_mem hq) hmem

theorem Covers.leaves_subset {pt ft : PNode} (h : Covers pt ft) :
    ∀ x ∈ leafHashes pt, x ∈ leafHashes ft := by
  induction h with
  | leaf h => intro x hx; exact hx
  | summary h t hd => intro x hx; simp [leafHashes] at hx
  | node h pl pr fl fr hl hr ihl ihr =>
    intro x hx
    simp [leafHashes] at hx ⊢
    cases hx with
    | inl hx => exact Or.inl (ihl x hx)
    | inr hx => exact Or.inr (ihr x hx)

theorem findInTree_same_path {s t : BitcoinNodeHash} :
    ∀ {c : PNode} {q : List Bool},
      findInTree s c = some q → findInTree t c = some q → s = t := by
  intro c
  induction c with
  | leaf h =>
    intro q hs ht
    simp [findInTree] at hs ht
    rw [← hs.1, ← ht.1]
  | branch h l r ihl ihr =>
    intro q hs ht
    rw [findInTree] at hs ht
    cases hsl : findInTree s l with
    | some p =>
      rw [hsl] at hs
      cases hs
      cases htl : findInTree t l with
      | some p2 =>
        rw [htl] at ht
        cases ht
        exact ihl hsl htl
      | none =>
        rw [htl] at ht
        cases htr : findInTree t r with
        | some p2 => rw [htr] at ht; cases ht
        | none => rw [htr] at ht; cases ht
    | none =>
      rw [hsl] at hs
      cases hsr : findInTree s r with
      | some p =>
        rw [hsr] at hs
        cases hs
        cases htl : findInTree t l with
        | some p2 => rw [htl] at ht; cases ht
        | none =>
          rw [htl] at ht
          cases htr : findInTree t r with
          | some p2 =>
            rw [htr] at ht
            cases ht
            exact ihr hsr htr
          | none => rw [htr] at ht; cases ht
      | none => rw [hsr] at hs; cases hs
  | branchL h l ihl =>
    intro q hs ht
    rw [findInTree] at hs ht
    cases hsl : findInTree s l with
    | some p =>
      rw [hsl] at hs
      cases hs
      cases htl : findInTree t l with
      | some p2 =>
        rw [htl] at ht
        cases ht
        exact ihl hsl htl
      | none => rw [htl] at ht; cases ht
    | none => rw [hsl] at hs; cases hs
  | branchR h r ihr =>
    intro q hs ht
    rw [findInTree] at hs ht
    cases hsr : findInTree s r with
    | some p =>
      rw [hsr] at hs
      cases hs
      cases htr : findInTree t r with
      | some p2 =>
        rw [htr] at ht
        cases ht
        exact ihr hsr htr
      | none => rw [htr] at ht; cases ht
    | none => rw [hsr] at hs; cases hs
  | branch0 h => intro q hs; cases hs

theorem findInTree_branch_congr (s : BitcoinNodeHash) (h h2 : BitcoinNodeHash)
    (pl pr fl fr : PNode)
    (hl : findInTree s pl = findInTree s fl) (hr : findInTree s pr = findInTree s fr) :
    findInTree s (.branch h pl pr) = findInTree s (.branch h2 fl fr) := by
  rw [findInTree, findInTree, hl, hr]

theorem findInTree_branch_decomp (s : BitcoinNodeHash) {h h2 : BitcoinNodeHash}
    {pl pr fl fr : PNode}
    (hnd : (leafHashes fl ++ leafHashes fr).Nodup)
    (hsl : ∀ x ∈ leafHashes pl, x ∈ leafHashes fl)
    (hsr : ∀ x ∈ leafHashes pr, x ∈ leafHashes fr)
    (hpar : findInTree s (.branch h pl pr) = findInTree s (.branch h2 fl fr)) :
    findInTree s pl = findInTree s fl ∧ findInTree s pr = findInTree s fr := by
  rw [findInTree, findInTree] at hpar
  have hdisj := List.disjoint_of_nodup_append hnd
  cases hl : findInTree s pl with
  | some p =>
    rw [hl] at hpar
    have hmem : s ∈ leafHashes fl := hsl s (findInTree_mem hl)
    cases hfl : findInTree s fl with
    | some p2 =>
      rw [hfl] at hpar
      cases hpar
      have hnr : s ∉ leafHashes fr := fun hin => hdisj hmem hin
      have hpr : s ∉ leafHashes pr := fun hin => hnr (hsr s hin)
      exact ⟨rfl, by rw [findInTree_not_mem hpr, findInTree_not_mem hnr]⟩
    | none =>
      rw [hfl] at hpar
      cases hfr : findInTree s fr with
      | some p2 => rw [hfr] at hpar; cases hpar
      | none => rw [hfr] at hpar; cases hpar
  | none =>
    rw [hl] at hpar
    cases hpr : findInTree s pr with
    | some p =>
      rw [hpr] at hpar
      have hmem : s ∈ leafHashes fr := hsr s (findInTree_mem hpr)
      have hnl : s ∉ leafHashes fl := fun hin => hdisj hin hmem
      rw [findInTree_not_mem hnl] at hpar
      cases hfr : findInTree s fr with
      | some p2 =>
        rw [hfr] at hpar
        cases hpar
        exact ⟨(findInTree_not_mem hnl).symm, hfr.symm ▸ rfl⟩
      | none => rw [hfr] at hpar; cases hpar
    | none =>
      rw [hpr] at hpar
      cases hfl : findInTree s fl with
      | some p2 =>
        rw [hfl] at hpar
        cases hpar
      | none =>
        rw [hfl] at hpar
        cases hfr : findInTree s fr with
        | some p2 => rw [hfr] at hpar; cases hpar
        | none => exact ⟨rfl, rfl⟩
theorem findInTree_cons_decomp {t0 : BitcoinNodeHash} {l r : PNode}
    {h : BitcoinNodeHash} {d : Bool} {rest : List Bool}
    (hf : findInTree t0 (.branch h l r) = some (d :: rest)) :
    (d = false ∧ findInTree t0 l = some rest) ∨
    (d = true ∧ findInTree t0 l = none ∧ findInTree t0 r = some rest) := by
  rw [findInTree] at hf
  cases hl : findInTree t0 l with
  | some p =>
    rw [hl] at hf
    cases hf
    exact Or.inl ⟨rfl, rfl⟩
  | none =>
    rw [hl] at hf
    cases hr : findInTree t0 r with
    | some p =>
      rw [hr] at hf
      cases hf
      exact Or.inr ⟨rfl, rfl, rfl⟩
    | none => rw [hr] at hf; cases hf

/-- The shapes forced on a covered pair by a non-empty search path. -/
theorem covered_pair_shape {pt ft : PNode} (hc : Covers pt ft)
    (hcomp : complete ft = true) {t0 : BitcoinNodeHash} {d : Bool} {rest : List Bool}
    (hft : findInTree t0 ft = some (d :: rest))
    (hpt : findInTree t0 pt = some (d :: rest)) :
    ∃ h fl fr pl pr, ft = .branch h fl fr ∧ pt = .branch h pl pr ∧
      Covers pl fl ∧ Covers pr fr ∧ complete fl = true ∧ complete fr = true := by
  cases hc with
  | leaf h => simp [findInTree] at hpt
  | summary h t hd => simp [findInTree] at hpt
  | node h pl pr fl fr hl hr =>
    simp only [complete, Bool.and_eq_true] at hcomp
    exact ⟨h, fl, fr, pl, pr, rfl, rfl, hl, hr, hcomp.1, hcomp.2⟩

theorem delPath_step :
    ∀ (dirs : List Bool) (t0 : BitcoinNodeHash) (pt ft : PNode),
      Covers pt ft → complete ft = true →
      findInTree t0 ft = some dirs → findInTree t0 pt = some dirs →
      dirs ≠ [] →
      ∃ ft2 pt2,
        delPath ft dirs = some ft2 ∧ delPath pt dirs = some pt2 ∧
        Covers pt2 ft2 ∧ complete ft2 = true ∧
        (leafHashes ft2).Sublist (leafHashes ft) ∧
        ((leafHashes ft).Nodup →
          (∀ s, findInTree s pt = findInTree s ft →
            findInTree s pt2 = findInTree s ft2) ∧
          (∀ s q, findInTree s ft = some q → q ≠ dirs →
            ∃ q2, findInTree s ft2 = some q2)) := by
  intro dirs
  induction dirs with
  | nil => intro t0 pt ft _ _ _ _ hne; exact absurd rfl hne
  | cons d rest ih =>
    intro t0 pt ft hc hcomp hft hpt _
    obtain ⟨h, fl, fr, pl, pr, rfl, rfl, hcl, hcr, hfl, hfr⟩ :=
      covered_pair_shape hc hcomp hft hpt
    have hndsub : (leafHashes (PNode.branch h fl fr)).Nodup →
        (leafHashes fl).Nodup ∧ (leafHashes fr).Nodup ∧
        (leafHashes fl).Disjoint (leafHashes fr) := by
      intro hnd
      rw [leafHashes] at hnd
      exact List.nodup_append.mp hnd
    cases rest with
    | nil =>
      -- parent of the target: the sibling replaces this node
      cases d with
      | true =>
        -- target on the right, sibling is the left child
        obtain hdec := findInTree_cons_decomp hft
        rcases hdec with ⟨hff, _⟩ | ⟨_, hfln, hfrt⟩
        · cases hff
        have hfrleaf : fr = .leaf t0 := by
          cases fr with
          | leaf hh => simp [findInTree] at hfrt; rw [hfrt]
          | branch hh a b =>
            rw [findInTree] at hfrt
            cases h1 : findInTree t0 a <;> rw [h1] at hfrt
            · cases h2 : findInTree t0 b <;> rw [h2] at hfrt <;> cases hfrt
            · cases hfrt
          | branchL hh a =>
            rw [findInTree] at hfrt
            cases h1 : findInTree t0 a <;> rw [h1] at hfrt <;> cases hfrt
          | branchR hh a =>
            rw [findInTree] at hfrt
            cases h1 : findInTree t0 a <;> rw [h1] at hfrt <;> cases hfrt
          | branch0 hh => cases hfrt
        refine ⟨fl, pl, rfl, rfl, hcl, hfl, ?_, ?_⟩
        · rw [leafHashes]
          exact List.sublist_append_left _ _
        · intro hnd
          obtain ⟨hnl, hnr, hdisj⟩ := hndsub hnd
          constructor
          · intro s hpar
            exact (findInTree_branch_decomp s (by rwa [leafHashes] at hnd)
              hcl.leaves_subset hcr.leaves_subset hpar).1
          · intro s q hq hqne
            rw [findInTree] at hq
            cases h1 : findInTree s fl with
            | some p => exact ⟨p, rfl⟩
            | none =>
              rw [h1] at hq
              cases h2 : findInTree s fr with
              | some p =>
                rw [h2] at hq
                cases hq
                rw [hfrleaf, findInTree] at h2
                by_cases hst : t0 = s
                · rw [if_pos hst] at h2
                  cases h2
                  exact absurd rfl hqne
                · rw [if_neg hst] at h2; cases h2
              | none => rw [h2] at hq; cases hq
      | false =>
        -- target on the left, sibling is the right child
        obtain hdec := findInTree_cons_decomp hft
        rcases hdec with ⟨_, hflt⟩ | ⟨hff, _⟩
        swap
        · cases hff
        have hflleaf : fl = .leaf t0 := by
          cases fl with
          | leaf hh => simp [findInTree] at hflt; rw [hflt]
          | branch hh a b =>
            rw [findInTree] at hflt
            cases h1 : findInTree t0 a <;> rw [h1] at hflt
            · cases h2 : findInTree t0 b <;> rw [h2] at hflt <;> cases hflt
            · cases hflt
          | branchL hh a =>
            rw [findInTree] at hflt
            cases h1 : findInTree t0 a <;> rw [h1] at hflt <;> cases hflt
          | branchR hh a =>
            rw [findInTree] at hflt
            cases h1 : findInTree t0 a <;> rw [h1] at hflt <;> cases hflt
          | branch0 hh => cases hflt
        refine ⟨fr, pr, rfl, rfl, hcr, hfr, ?_, ?_⟩
        · rw [leafHashes]
          exact List.sublist_append_right _ _
        · intro hnd
          obtain ⟨hnl, hnr, hdisj⟩ := hndsub hnd
          constructor
          · intro s hpar
            exact (findInTree_branch_decomp s (by rwa [leafHashes] at hnd)
              hcl.leaves_subset hcr.leaves_subset hpar).2
          · intro s q hq hqne
            rw [findInTree] at hq
            cases h1 : findInTree s fl with
            | some p =>
              rw [h1] at hq
              cases hq
              rw [hflleaf, findInTree] at h1
              by_cases hst : t0 = s
              · rw [if_pos hst] at h1
                cases h1
                exact absurd rfl hqne
              · rw [if_neg hst] at h1; cases h1
            | none =>
              rw [h1] at hq
              cases h2 : findInTree s fr with
              | some p => exact ⟨p, rfl⟩
              | none => rw [h2] at hq; cases hq
    | cons d2 rest2 =>
      -- interior step: recurse into the child on the path and recompute
      cases d with
      | true =>
        obtain hdec := findInTree_cons_decomp hft
        rcases hdec with ⟨hff, _⟩ | ⟨_, hfln, hfrt⟩
        · cases hff
        obtain hdecp := findInTree_cons_decomp hpt
        rcases hdecp with ⟨hff, _⟩ | ⟨_, hpln, hprt⟩
        · cases hff
        obtain ⟨ft2', pt2', hdf, hdp, hc2, hcomp2, hsub2, hrest⟩ :=
          ih t0 pr fr hcr hfr hfrt hprt (by simp)
        have hdata : pl.data = fl.data := hcl.data_eq
        have hdata2 : pt2'.data = ft2'.data := hc2.data_eq
        refine ⟨.branch (BitcoinNodeHash.parent_hash fl.data ft2'.data) fl ft2',
                .branch (BitcoinNodeHash.parent_hash fl.data ft2'.data) pl pt2',
                ?_, ?_, Covers.node _ _ _ _ _ hcl hc2, ?_, ?_, ?_⟩
        · simp [delPath, hdf]
        · simp [delPath, hdp, hdata, hdata2]
        · simp [complete, hfl, hcomp2]
        · rw [leafHashes, leafHashes]
          exact (hsub2.append_left _)
        · intro hnd
          obtain ⟨hnl, hnr, hdisj⟩ := hndsub hnd
          have hnd2 : (leafHashes fr).Nodup := hnr
          obtain ⟨hpar2, hsurv2⟩ := hrest hnd2
          constructor
          · intro s hpar
            obtain ⟨hl2, hr2⟩ := findInTree_branch_decomp s
              (by rwa [leafHashes] at hnd) hcl.leaves_subset hcr.leaves_subset hpar
            exact findInTree_branch_congr s _ _ _ _ _ _ hl2 (hpar2 s hr2)
          · intro s q hq hqne
            rw [findInTree] at hq
            cases h1 : findInTree s fl with
            | some p =>
              rw [h1] at hq
              refine ⟨false :: p, ?_⟩
              rw [findInTree, h1]
            | none =>
              rw [h1] at hq
              cases h2 : findInTree s fr with
              | some p =>
                rw [h2] at hq
                cases hq
                have hpne : p ≠ d2 :: rest2 := by
                  intro he
                  exact hqne (by rw [he])
                obtain ⟨q2, hq2⟩ := hsurv2 s p h2 hpne
                refine ⟨true :: q2, ?_⟩
                rw [findInTree, h1, hq2]
              | none => rw [h2] at hq; cases hq
      | false =>
        obtain hdec := findInTree_cons_decomp hft
        rcases hdec with ⟨_, hflt⟩ | ⟨hff, _⟩
        swap
        · cases hff
        obtain hdecp := findInTree_cons_decomp hpt
        rcases hdecp with ⟨_, hplt⟩ | ⟨hff, _⟩
        swap
        · cases hff
        obtain ⟨ft2', pt2', hdf, hdp, hc2, hcomp2, hsub2, hrest⟩ :=
          ih t0 pl fl hcl hfl hflt hplt (by simp)
        have hdata : pr.data = fr.data := hcr.data_eq
        have hdata2 : pt2'.data = ft2'.data := hc2.data_eq
        refine ⟨.branch (BitcoinNodeHash.parent_hash ft2'.data fr.data) ft2' fr,
                .branch (BitcoinNodeHash.parent_hash ft2'.data fr.data) pt2' pr,
                ?_, ?_, Covers.node _ _ _ _ _ hc2 hcr, ?_, ?_, ?_⟩
        · simp [delPath, hdf]
        · simp [delPath, hdp, hdata, hdata2]
        · simp [complete, hfr, hcomp2]
        · rw [leafHashes, leafHashes]
          exact (hsub2.append_right _)
        · intro hnd
          obtain ⟨hnl, hnr, hdisj⟩ := hndsub hnd
          obtain ⟨hpar2, hsurv2⟩ := hrest hnl
          constructor
          · intro s hpar
            obtain ⟨hl2, hr2⟩ := findInTree_branch_decomp s
              (by rwa [leafHashes] at hnd) hcl.leaves_subset hcr.leaves_subset hpar
            exact findInTree_branch_congr s _ _ _ _ _ _ (hpar2 s hl2) hr2
          · intro s q hq hqne
            rw [findInTree] at hq
            cases h1 : findInTree s fl with
            | some p =>
              rw [h1] at hq
              cases hq
              have hpne : p ≠ d2 :: rest2 := by
                intro he
                exact hqne (by rw [he])
              obtain ⟨q2, hq2⟩ := hsurv2 s p h1 hpne
              refine ⟨false :: q2, ?_⟩
              rw [findInTree, hq2]
            | none =>
              rw [h1] at hq
              cases h2 : findInTree s fr with
              | some p =>
                rw [h2] at hq
                cases hq
                have hnot : s ∉ leafHashes ft2' := by
                  intro hin
                  exact hdisj (hsub2.subset hin) (findInTree_mem h2)
                refine ⟨true :: p, ?_⟩
                rw [findInTree, findInTree_not_mem hnot, h2]
              | none => rw [h2] at hq; cases hq
theorem mapContains_iff_mem (m : List BitcoinNodeHash) (h : BitcoinNodeHash) :
    mapContains m h = true ↔ h ∈ m := by
  rw [mapContains, List.any_eq_true]
  constructor
  · rintro ⟨x, hx, he⟩
    exact (of_decide_eq_true he) ▸ hx
  · intro hm
    exact ⟨h, hm, by simp⟩

theorem mapContains_mapRemove_ne (m : List BitcoinNodeHash) {s t : BitcoinNodeHash}
    (hne : s ≠ t) : mapContains (mapRemove m t) s = mapContains m s := by
  rw [Bool.eq_iff_iff, mapContains_iff_mem, mapContains_iff_mem, mapRemove]
  constructor
  · intro hmem; exact (List.mem_filter.mp hmem).1
  · intro hmem
    refine List.mem_filter.mpr ⟨hmem, ?_⟩
    simp [hne]

theorem mem_mapInsert (h s : BitcoinNodeHash) :
    ∀ m : List BitcoinNodeHash, s ∈ mapInsert h m ↔ s = h ∨ s ∈ m := by
  intro m
  induction m with
  | nil => simp [mapInsert]
  | cons x xs ih =>
    rw [mapInsert]
    by_cases he : h = x
    · rw [if_pos he]
      subst he
      simp [List.mem_cons]
    · rw [if_neg he]
      by_cases hlt : BitcoinNodeHash.hlt h x = true
      · rw [if_pos hlt]
        simp [List.mem_cons]
      · rw [if_neg hlt]
        simp [List.mem_cons, ih]
        tauto

theorem mapContains_foldl_mapInsert (l : List BitcoinNodeHash) :
    ∀ (acc : List BitcoinNodeHash) (t : BitcoinNodeHash),
      (t ∈ l ∨ mapContains acc t = true) →
      mapContains (l.foldl (fun m h => mapInsert h m) acc) t = true := by
  induction l with
  | nil =>
    intro acc t hmem
    rcases hmem with hmem | hmem
    · cases hmem
    · simpa using hmem
  | cons x xs ih =>
    intro acc t hmem
    rw [List.foldl_cons]
    refine ih (mapInsert x acc) t ?_
    rcases hmem with hmem | hmem
    · rcases List.mem_cons.mp hmem with he | hm
      · exact Or.inr ((mapContains_iff_mem _ _).mpr ((mem_mapInsert x t acc).mpr (Or.inl he)))
      · exact Or.inl hm
    · exact Or.inr ((mapContains_iff_mem _ _).mpr
        ((mem_mapInsert x t acc).mpr (Or.inr ((mapContains_iff_mem _ _).mp hmem))))

theorem findInTree_nil {t : BitcoinNodeHash} :
    ∀ {c : PNode}, findInTree t c = some [] → c = .leaf t := by
  intro c hc
  cases c with
  | leaf h =>
    rw [findInTree] at hc
    by_cases he : h = t
    · rw [he]
    · rw [if_neg he] at hc; cases hc
  | branch h l r =>
    rw [findInTree] at hc
    cases h1 : findInTree t l with
    | some p => rw [h1] at hc; cases hc
    | none =>
      rw [h1] at hc
      cases h2 : findInTree t r with
      | some p => rw [h2] at hc; cases hc
      | none => rw [h2] at hc; cases hc
  | branchL h l =>
    rw [findInTree] at hc
    cases h1 : findInTree t l with
    | some p => rw [h1] at hc; cases hc
    | none => rw [h1] at hc; cases hc
  | branchR h r =>
    rw [findInTree] at hc
    cases h1 : findInTree t r with
    | some p => rw [h1] at hc; cases hc
    | none => rw [h1] at hc; cases hc
  | branch0 h => cases hc

theorem findPathAux_congr (t : BitcoinNodeHash) :
    ∀ (ps fs : List PNode), List.Forall₂ (fun a b => findInTree t a = findInTree t b) ps fs →
      ∀ j, findPathAux t ps j = findPathAux t fs j := by
  intro ps fs hf
  induction hf with
  | nil => intro j; rfl
  | cons hab hrest ih =>
    intro j
    rw [findPathAux, findPathAux, hab]
    cases findInTree t _ with
    | some p => rfl
    | none => exact ih (j + 1)

theorem findPath_congr (t : BitcoinNodeHash) (ps fs : List PNode)
    (hf : List.Forall₂ (fun a b => findInTree t a = findInTree t b) ps fs) :
    findPath ps t = findPath fs t :=
  findPathAux_congr t ps fs hf 0

theorem findPathAux_spec (t : BitcoinNodeHash) :
    ∀ (roots : List PNode) (j ti : Nat) (dirs : List Bool),
      findPathAux t roots j = some (ti, dirs) →
      j ≤ ti ∧ ∃ root, roots.get? (ti - j) = some root ∧ findInTree t root = some dirs := by
  intro roots
  induction roots with
  | nil => intro j ti dirs h; cases h
  | cons r rest ih =>
    intro j ti dirs h
    rw [findPathAux] at h
    cases h1 : findInTree t r with
    | some p =>
      rw [h1] at h
      cases h
      exact ⟨Nat.le_refl _, r, by simp, h1⟩
    | none =>
      rw [h1] at h
      obtain ⟨hle, root, hget, hfind⟩ := ih (j + 1) ti dirs h
      refine ⟨by omega, root, ?_, hfind⟩
      rw [show ti - j = (ti - (j + 1)) + 1 by omega]
      simpa using hget

theorem findPath_spec (t : BitcoinNodeHash) (roots : List PNode) (ti : Nat)
    (dirs : List Bool) (h : findPath roots t = some (ti, dirs)) :
    ∃ root, roots.get? ti = some root ∧ findInTree t root = some dirs := by
  obtain ⟨_, root, hget, hfind⟩ := findPathAux_spec t roots 0 ti dirs h
  exact ⟨root, by simpa using hget, hfind⟩

theorem findPathAux_isSome (t : BitcoinNodeHash) :
    ∀ (roots : List PNode) (j : Nat) (i : Nat) (root : PNode),
      roots.get? i = some root → (findInTree t root).isSome →
      (findPathAux t roots j).isSome := by
  intro roots
  induction roots with
  | nil => intro j i root hget; cases hget
  | cons r rest ih =>
    intro j i root hget hsome
    rw [findPathAux]
    cases h1 : findInTree t r with
    | some p => simp
    | none =>
      cases i with
      | zero =>
        simp at hget
        rw [← hget, h1] at hsome
        cases hsome
      | succ i2 =>
        simp at hget
        exact ih (j + 1) i2 root (by simpa using hget) hsome

theorem forall2_set {α β : Type} {R : α → β → Prop} :
    ∀ {ps : List α} {fs : List β}, List.Forall₂ R ps fs →
      ∀ (i : Nat) (a : α) (b : β), R a b →
      List.Forall₂ R (ps.set i a) (fs.set i b) := by
  intro ps fs hf
  induction hf with
  | nil => intro i a b hab; simp
  | cons hxy hrest ih =>
    intro i a b hab
    cases i with
    | zero => exact List.Forall₂.cons hab hrest
    | succ i2 => exact List.Forall₂.cons hxy (ih i2 a b hab)

theorem forall2_get (R : PNode → PNode → Prop) :
    ∀ {ps fs : List PNode}, List.Forall₂ R ps fs →
      ∀ (i : Nat) (a : PNode), ps.get? i = some a →
      ∃ b, fs.get? i = some b ∧ R a b := by
  intro ps fs hf
  induction hf with
  | nil => intro i a hget; cases hget
  | cons hxy hrest ih =>
    intro i a hget
    cases i with
    | zero =>
      simp at hget
      exact ⟨_, by simp, hget ▸ hxy⟩
    | succ i2 =>
      simp at hget
      obtain ⟨b, hb, hr⟩ := ih i2 a (by simpa using hget)
      exact ⟨b, by simpa using hb, hr⟩

theorem insertSortedPair_perm (x : Nat × BitcoinNodeHash) :
    ∀ (l : List (Nat × BitcoinNodeHash)), (insertSortedPair x l).Perm (x :: l) := by
  intro l
  induction l with
  | nil => exact List.Perm.refl _
  | cons y ys ih =>
    rw [insertSortedPair]
    by_cases hlt : pairLt x y = true
    · rw [if_pos hlt]
    · rw [if_neg hlt]
      exact (List.Perm.cons y ih).trans (List.Perm.swap x y ys)

theorem sortPairs_perm (l : List (Nat × BitcoinNodeHash)) : (sortPairs l).Perm l := by
  induction l with
  | nil => exact List.Perm.refl _
  | cons x xs ih =>
    rw [sortPairs, List.foldr_cons]
    exact (insertSortedPair_perm x _).trans (List.Perm.cons x ih)
theorem forall2_get_right (R : PNode → PNode → Prop) :
    ∀ {ps fs : List PNode}, List.Forall₂ R ps fs →
      ∀ (i : Nat) (b : PNode), fs.get? i = some b →
      ∃ a, ps.get? i = some a ∧ R a b := by
  intro ps fs hf
  induction hf with
  | nil => intro i b hget; cases hget
  | cons hxy hrest ih =>
    intro i b hget
    cases i with
    | zero =>
      simp at hget
      exact ⟨_, by simp, hget ▸ hxy⟩
    | succ i2 =>
      simp at hget
      obtain ⟨a, ha, hr⟩ := ih i2 b (by simpa using hget)
      exact ⟨a, by simpa using ha, hr⟩

/-- The invariant tying each pruned tree to the full-forest tree it was drawn
from, while a deletion batch runs: coverage, distinct full leaves, and either
a fully materialised full tree or a root both sides have emptied. -/
def TreeInv (pt ft : PNode) : Prop :=
  Covers pt ft ∧ (leafHashes ft).Nodup ∧
    (complete ft = true ∨ (pt = .branch0 .empty ∧ ft = .branch0 .empty))

theorem delLoop_cons_eq (t : BitcoinNodeHash) (rest : List BitcoinNodeHash) (p : Pollard)
    (hm : mapContains p.map t = true) {pr : Nat × List Bool}
    (hfp : findPath p.roots t = some pr) :
    Pollard.delLoop (t :: rest) p =
      Pollard.delLoop rest ⟨delAtPath p.roots pr.1 pr.2, p.leaves, mapRemove p.map t⟩ := by
  rw [Pollard.delLoop, if_pos hm]
  dsimp only
  rw [hfp]

theorem delLoop_parity :
    ∀ (ts : List BitcoinNodeHash) (P F : Pollard),
      ts.Nodup →
      List.Forall₂ TreeInv P.roots F.roots →
      (∀ t ∈ ts, mapContains P.map t = true) →
      (∀ t ∈ ts, mapContains F.map t = true) →
      (∀ t ∈ ts, List.Forall₂ (fun a b => findInTree t a = findInTree t b) P.roots F.roots) →
      (∀ t ∈ ts, ∃ i root, F.roots.get? i = some root ∧ (findInTree t root).isSome) →
      ∃ P2 F2, Pollard.delLoop ts P = .ok P2 ∧ Pollard.delLoop ts F = .ok F2 ∧
        P2.leaves = P.leaves ∧ F2.leaves = F.leaves ∧
        List.Forall₂ TreeInv P2.roots F2.roots := by
  intro ts
  induction ts with
  | nil =>
    intro P F _ hti _ _ _ _
    exact ⟨P, F, rfl, rfl, rfl, rfl, hti⟩
  | cons t rest ih =>
    intro P F hnd hti hcP hcF hpar hpres
    have hmP : mapContains P.map t = true := hcP t (List.mem_cons_self t rest)
    have hmF : mapContains F.map t = true := hcF t (List.mem_cons_self t rest)
    obtain ⟨i0, root0, hget0, hsome0⟩ := hpres t (List.mem_cons_self t rest)
    have hfpsome : (findPath F.roots t).isSome :=
      findPathAux_isSome t F.roots 0 i0 root0 hget0 hsome0
    obtain ⟨pr, hfpF⟩ := Option.isSome_iff_exists.mp hfpsome
    have hfpP : findPath P.roots t = some pr := by
      rw [findPath_congr t P.roots F.roots (hpar t (List.mem_cons_self t rest)), hfpF]
    obtain ⟨froot, hgetF, hfindF⟩ := findPath_spec t F.roots pr.1 pr.2 (by
      rw [← hfpF])
    obtain ⟨proot, hgetP, htiPF⟩ := forall2_get_right TreeInv hti pr.1 froot hgetF
    obtain ⟨froot2, hgetF2, hparPF⟩ :=
      forall2_get (fun a b => findInTree t a = findInTree t b)
        (hpar t (List.mem_cons_self t rest)) pr.1 proot hgetP
    have hfe : froot2 = froot := by
      rw [hgetF] at hgetF2
      exact (Option.some.inj hgetF2).symm
    rw [hfe] at hparPF
    have hfindP : findInTree t proot = some pr.2 := by rw [hparPF, hfindF]
    have htilt : pr.1 < F.roots.length := (List.get?_eq_some.mp hgetF).1
    have htiltP : pr.1 < P.roots.length := (List.get?_eq_some.mp hgetP).1
    have hndrest : rest.Nodup := (List.nodup_cons.mp hnd).2
    have htnotrest : t ∉ rest := (List.nodup_cons.mp hnd).1
    cases hdirs : pr.2 with
    | nil =>
      -- the target is alone in its tree: both roots are emptied in place
      rw [hdirs] at hfindF hfindP
      have hfleaf : froot = .leaf t := findInTree_nil hfindF
      have hpleaf : proot = .leaf t := findInTree_nil hfindP
      have hdelF : delAtPath F.roots pr.1 [] = F.roots.set pr.1 (.branch0 .empty) := by
        rw [delAtPath, hgetF]
      have hdelP : delAtPath P.roots pr.1 [] = P.roots.set pr.1 (.branch0 .empty) := by
        rw [delAtPath, hgetP]
      obtain ⟨P2, F2, hP2, hF2, hl1, hl2, hti2⟩ :=
        ih ⟨P.roots.set pr.1 (.branch0 .empty), P.leaves, mapRemove P.map t⟩
           ⟨F.roots.set pr.1 (.branch0 .empty), F.leaves, mapRemove F.map t⟩
          hndrest
          (forall2_set hti pr.1 _ _
            ⟨Covers.summary .empty (.branch0 .empty) rfl, by simp [leafHashes],
             Or.inr ⟨rfl, rfl⟩⟩)
          (by
            intro s hs
            have hsne : s ≠ t := fun he => htnotrest (he ▸ hs)
            rw [mapContains_mapRemove_ne P.map hsne]
            exact hcP s (List.mem_cons_of_mem t hs))
          (by
            intro s hs
            have hsne : s ≠ t := fun he => htnotrest (he ▸ hs)
            rw [mapContains_mapRemove_ne F.map hsne]
            exact hcF s (List.mem_cons_of_mem t hs))
          (by
            intro s hs
            exact forall2_set (hpar s (List.mem_cons_of_mem t hs)) pr.1 _ _ rfl)
          (by
            intro s hs
            obtain ⟨i2, root2, hget2, hsome2⟩ := hpres s (List.mem_cons_of_mem t hs)
            by_cases hie : pr.1 = i2
            · subst hie
              rw [hgetF] at hget2
              cases Option.some.inj hget2
              rw [hfleaf, findInTree] at hsome2
              by_cases hst : t = s
              · exact absurd (hst ▸ hs) htnotrest
              · rw [if_neg hst] at hsome2; cases hsome2
            · refine ⟨i2, root2, ?_, hsome2⟩
              dsimp only
              rw [List.get?_eq_getElem?, List.getElem?_set_ne hie,
                ← List.get?_eq_getElem?]
              exact hget2)
      refine ⟨P2, F2, ?_, ?_, hl1, hl2, hti2⟩
      · rw [delLoop_cons_eq t rest P hmP hfpP, hdirs, hdelP]
        exact hP2
      · rw [delLoop_cons_eq t rest F hmF hfpF, hdirs, hdelF]
        exact hF2
    | cons d dirs' =>
      -- interior target: one structural deletion in the selected tree pair
      rw [hdirs] at hfindF hfindP
      obtain ⟨hcov, hndft, hcompft⟩ := htiPF
      have hcompft2 : complete froot = true := by
        rcases hcompft with hc | ⟨_, hfe2⟩
        · exact hc
        · rw [hfe2] at hfindF; cases hfindF
      obtain ⟨ft2, pt2, hdf, hdp, hcov2, hcomp2, hsub2, hrest2⟩ :=
        delPath_step (d :: dirs') t proot froot hcov hcompft2 hfindF hfindP
          (by simp)
      obtain ⟨hpar2, hsurv2⟩ := hrest2 hndft
      have hdelF : delAtPath F.roots pr.1 (d :: dirs') = F.roots.set pr.1 ft2 := by
        rw [delAtPath, hgetF]
        dsimp only
        rw [hdf]
      have hdelP : delAtPath P.roots pr.1 (d :: dirs') = P.roots.set pr.1 pt2 := by
        rw [delAtPath, hgetP]
        dsimp only
        rw [hdp]
      obtain ⟨P2, F2, hP2, hF2, hl1, hl2, hti2⟩ :=
        ih ⟨P.roots.set pr.1 pt2, P.leaves, mapRemove P.map t⟩
           ⟨F.roots.set pr.1 ft2, F.leaves, mapRemove F.map t⟩
          hndrest
          (forall2_set hti pr.1 _ _ ⟨hcov2, hsub2.nodup hndft, Or.inl hcomp2⟩)
          (by
            intro s hs
            have hsne : s ≠ t := fun he => htnotrest (he ▸ hs)
            rw [mapContains_mapRemove_ne P.map hsne]
            exact hcP s (List.mem_cons_of_mem t hs))
          (by
            intro s hs
            have hsne : s ≠ t := fun he => htnotrest (he ▸ hs)
            rw [mapContains_mapRemove_ne F.map hsne]
            exact hcF s (List.mem_cons_of_mem t hs))
          (by
            intro s hs
            obtain ⟨froot3, hgetF3, hparPF3⟩ :=
              forall2_get (fun a b => findInTree s a = findInTree s b)
                (hpar s (List.mem_cons_of_mem t hs)) pr.1 proot hgetP
            have hfe3 : froot3 = froot := by
              rw [hgetF] at hgetF3
              exact (Option.some.inj hgetF3).symm
            rw [hfe3] at hparPF3
            exact forall2_set (hpar s (List.mem_cons_of_mem t hs)) pr.1 _ _
              (hpar2 s hparPF3))
          (by
            intro s hs
            obtain ⟨i2, root2, hget2, hsome2⟩ := hpres s (List.mem_cons_of_mem t hs)
            by_cases hie : pr.1 = i2
            · subst hie
              rw [hgetF] at hget2
              cases Option.some.inj hget2
              obtain ⟨q, hq⟩ := Option.isSome_iff_exists.mp hsome2
              have hqne : q ≠ d :: dirs' := by
                intro he
                rw [he] at hq
                have hst : s = t := findInTree_same_path hq hfindF
                exact htnotrest (hst ▸ hs)
              obtain ⟨q2, hq2⟩ := hsurv2 s q hq hqne
              refine ⟨pr.1, ft2, ?_, by rw [hq2]; simp⟩
              dsimp only
              rw [List.get?_eq_getElem?, List.getElem?_set_eq_of_lt _ htilt]
            · refine ⟨i2, root2, ?_, hsome2⟩
              dsimp only
              rw [List.get?_eq_getElem?, List.getElem?_set_ne hie,
                ← List.get?_eq_getElem?]
              exact hget2)
      refine ⟨P2, F2, ?_, ?_, hl1, hl2, hti2⟩
      · rw [delLoop_cons_eq t rest P hmP hfpP, hdirs, hdelP]
        exact hP2
      · rw [delLoop_cons_eq t rest F hmF hfpF, hdirs, hdelF]
        exact hF2
theorem forall2_treeInv_data :
    ∀ {ps fs : List PNode}, List.Forall₂ TreeInv ps fs →
      ps.map PNode.data = fs.map PNode.data := by
  intro ps fs hf
  induction hf with
  | nil => rfl
  | cons hxy hrest ih =>
    rw [List.map_cons, List.map_cons, ih, hxy.1.data_eq]

theorem is_empty_eq {h : BitcoinNodeHash} (he : h.is_empty = true) : h = .empty := by
  cases h with
  | empty => rfl
  | placeholder => cases he
  | value inner => cases he

theorem addLoop_data :
    ∀ (fuel : Nat) (r1 r2 : List PNode) (n1 n2 : PNode) (leaves : Nat),
      r1.map PNode.data = r2.map PNode.data → n1.data = n2.data →
      (addLoop fuel r1 n1 leaves).1.map PNode.data =
        (addLoop fuel r2 n2 leaves).1.map PNode.data ∧
      (addLoop fuel r1 n1 leaves).2.data = (addLoop fuel r2 n2 leaves).2.data := by
  intro fuel
  induction fuel with
  | zero => intro r1 r2 n1 n2 leaves hr hn; exact ⟨hr, hn⟩
  | succ fuel ih =>
    intro r1 r2 n1 n2 leaves hr hn
    rw [addLoop, addLoop]
    by_cases hpar : leaves % 2 = 1
    · rw [if_pos hpar, if_pos hpar]
      have hlast : r1.getLast?.map PNode.data = r2.getLast?.map PNode.data := by
        rw [← List.getLast?_map, ← List.getLast?_map, hr]
      have hdrop : r1.dropLast.map PNode.data = r2.dropLast.map PNode.data := by
        rw [List.map_dropLast, List.map_dropLast, hr]
      cases h1 : r1.getLast? with
      | none =>
        cases h2 : r2.getLast? with
        | none => exact ⟨hr, hn⟩
        | some b => rw [h1, h2] at hlast; cases hlast
      | some a =>
        cases h2 : r2.getLast? with
        | none => rw [h1, h2] at hlast; cases hlast
        | some b =>
          rw [h1, h2] at hlast
          have hab : a.data = b.data := by
            simpa using hlast
          dsimp only
          by_cases hemp : a.data = .empty
          · rw [if_pos hemp, if_pos (hab ▸ hemp)]
            exact ih _ _ _ _ _ hdrop hn
          · rw [if_neg hemp, if_neg (fun hc => hemp (by rw [hab, hc]))]
            refine ih _ _ _ _ _ hdrop ?_
            show BitcoinNodeHash.parent_hash a.data n1.data =
              BitcoinNodeHash.parent_hash b.data n2.data
            rw [hab, hn]
    · rw [if_neg hpar, if_neg hpar]
      exact ⟨hr, hn⟩

theorem add_single_data (p q : Pollard) (v : BitcoinNodeHash)
    (hr : p.roots.map PNode.data = q.roots.map PNode.data)
    (hl : p.leaves = q.leaves) :
    (p.add_single v).roots.map PNode.data = (q.add_single v).roots.map PNode.data ∧
    (p.add_single v).leaves = (q.add_single v).leaves := by
  obtain ⟨h1, h2⟩ := addLoop_data (p.leaves + 1) p.roots q.roots (.leaf v) (.leaf v)
    p.leaves hr rfl
  rw [hl] at h1 h2
  constructor
  · rw [Pollard.add_single, Pollard.add_single]
    dsimp only
    rw [List.map_append, List.map_append, hl, h1, List.map_singleton,
      List.map_singleton, h2]
  · rw [Pollard.add_single, Pollard.add_single]
    dsimp only
    rw [hl]

theorem add_data :
    ∀ (vs : List BitcoinNodeHash) (p q : Pollard),
      p.roots.map PNode.data = q.roots.map PNode.data → p.leaves = q.leaves →
      (p.add vs).roots.map PNode.data = (q.add vs).roots.map PNode.data ∧
      (p.add vs).leaves = (q.add vs).leaves := by
  intro vs
  induction vs with
  | nil => intro p q hr hl; exact ⟨hr, hl⟩
  | cons v rest ih =>
    intro p q hr hl
    obtain ⟨h1, h2⟩ := add_single_data p q v hr hl
    exact ih (p.add_single v) (q.add_single v) h1 h2

theorem pairs_snd_sublist (m : List BitcoinNodeHash) (g : BitcoinNodeHash → Nat) :
    ∀ (D : List BitcoinNodeHash),
      ((D.filterMap fun t => if mapContains m t then some (g t, t) else none).map
        Prod.snd).Sublist D := by
  intro D
  induction D with
  | nil => simp
  | cons x xs ih =>
    rw [List.filterMap_cons]
    by_cases hc : mapContains m x = true
    · rw [if_pos hc]
      rw [List.map_cons]
      exact ih.cons₂ x
    · rw [if_neg hc]
      exact ih.cons x
theorem del_parity (P F : Pollard) (D : List BitcoinNodeHash)
    (hleq : P.leaves = F.leaves)
    (hti : List.Forall₂ TreeInv P.roots F.roots)
    (hD : D.Nodup)
    (hcP : ∀ t ∈ D, mapContains P.map t = true)
    (hcF : ∀ t ∈ D, mapContains F.map t = true)
    (hpar : ∀ t ∈ D,
      List.Forall₂ (fun a b => findInTree t a = findInTree t b) P.roots F.roots)
    (hpres : ∀ t ∈ D,
      ∃ i root, F.roots.get? i = some root ∧ (findInTree t root).isSome = true) :
    ∃ P2 F2, P.del D = .ok P2 ∧ F.del D = .ok F2 ∧
      P2.leaves = P.leaves ∧ F2.leaves = F.leaves ∧
      List.Forall₂ TreeInv P2.roots F2.roots := by
  have hpairs :
      (D.filterMap fun t =>
        if mapContains P.map t then some ((P.getPosOfHash t).getD 0, t) else none) =
      (D.filterMap fun t =>
        if mapContains F.map t then some ((F.getPosOfHash t).getD 0, t) else none) := by
    refine List.filterMap_congr ?_
    intro t ht
    rw [if_pos (hcP t ht), if_pos (hcF t ht)]
    rw [Pollard.getPosOfHash, Pollard.getPosOfHash,
      findPath_congr t P.roots F.roots (hpar t ht), hleq]
  have hts_mem : ∀ t ∈ (sortPairs (D.filterMap fun t =>
      if mapContains F.map t then some ((F.getPosOfHash t).getD 0, t) else none)).unzip.2,
      t ∈ D := by
    intro t ht
    rw [List.unzip_snd] at ht
    have hperm := (sortPairs_perm (D.filterMap fun t =>
      if mapContains F.map t then some ((F.getPosOfHash t).getD 0, t) else none)).map
      Prod.snd
    have ht2 := hperm.mem_iff.mp ht
    exact (pairs_snd_sublist F.map (fun t => (F.getPosOfHash t).getD 0) D).subset ht2
  have hts_nodup : ((sortPairs (D.filterMap fun t =>
      if mapContains F.map t then some ((F.getPosOfHash t).getD 0, t) else none)).unzip.2).Nodup := by
    rw [List.unzip_snd]
    have hperm := (sortPairs_perm (D.filterMap fun t =>
      if mapContains F.map t then some ((F.getPosOfHash t).getD 0, t) else none)).map
      Prod.snd
    exact hperm.symm.nodup
      ((pairs_snd_sublist F.map (fun t => (F.getPosOfHash t).getD 0) D).nodup hD)
  obtain ⟨P2, F2, hP2, hF2, hl1, hl2, hti2⟩ :=
    delLoop_parity ((sortPairs (D.filterMap fun t =>
        if mapContains F.map t then some ((F.getPosOfHash t).getD 0, t) else none)).unzip.2)
      P F hts_nodup hti
      (fun t ht => hcP t (hts_mem t ht))
      (fun t ht => hcF t (hts_mem t ht))
      (fun t ht => hpar t (hts_mem t ht))
      (fun t ht => hpres t (hts_mem t ht))
  refine ⟨P2, F2, ?_, ?_, hl1, hl2, hti2⟩
  · rw [Pollard.del]
    rw [hpairs]
    exact hP2
  · rw [Pollard.del]
    exact hF2
theorem modify_parity (P F : Pollard) (A D : List BitcoinNodeHash)
    (hleq : P.leaves = F.leaves)
    (hti : List.Forall₂ TreeInv P.roots F.roots)
    (hD : D.Nodup)
    (hcP : ∀ t ∈ D, mapContains P.map t = true)
    (hcF : ∀ t ∈ D, mapContains F.map t = true)
    (hpar : ∀ t ∈ D,
      List.Forall₂ (fun a b => findInTree t a = findInTree t b) P.roots F.roots)
    (hpres : ∀ t ∈ D,
      ∃ i root, F.roots.get? i = some root ∧ (findInTree t root).isSome = true) :
    ∃ P2 F2, P.modify A D = .ok P2 ∧ F.modify A D = .ok F2 ∧
      P2.roots.map PNode.data = F2.roots.map PNode.data ∧ P2.leaves = F2.leaves := by
  obtain ⟨P1, F1, hP1, hF1, hl1, hl2, hti1⟩ :=
    del_parity P F D hleq hti hD hcP hcF hpar hpres
  obtain ⟨hadd1, hadd2⟩ := add_data A P1 F1 (forall2_treeInv_data hti1)
    (by rw [hl1, hl2, hleq])
  refine ⟨P1.add A, F1.add A, ?_, ?_, hadd1, hadd2⟩
  · rw [Pollard.modify, hP1]
    rfl
  · rw [Pollard.modify, hF1]
    rfl

/-- C1: for a well-formed full forest and a duplicate-free delete set whose
members are all indexed and present, `forest_to_pollard` succeeds with a
pollard carrying the forest's root hashes and leaf count, the same
`modify(adds, deletes)` succeeds on both structures with identical root-hash
lists and leaf counts, and `pollard_after_block` returns exactly the advanced
pollard (its final root check passes). -/
theorem c1_pollard_forest_parity
    (bytes : List Nat) (F : Pollard) (A D : List BitcoinNodeHash)
    (hdes : Pollard.deserialize bytes = .ok F)
    (hprove : (F.prove D).isOk = true)
    (hroot : ∀ r ∈ F.roots, rootOk r = true)
    (hnd : ∀ r ∈ F.roots, (leafHashes r).Nodup)
    (hD : D.Nodup)
    (hmapF : ∀ t ∈ D, mapContains F.map t = true)
    (hfind : ∀ t ∈ D, ∃ r ∈ F.roots, (findInTree t r).isSome = true) :
    ∃ P P2 F2,
      forest_to_pollard bytes D = .ok P ∧
      P.roots.map PNode.data = F.roots.map PNode.data ∧
      P.leaves = F.leaves ∧
      P.modify A D = .ok P2 ∧
      F.modify A D = .ok F2 ∧
      P2.roots.map PNode.data = F2.roots.map PNode.data ∧
      P2.leaves = F2.leaves ∧
      pollard_after_block bytes D A = .ok P2 := by
  have hfind2 : ∀ t ∈ D,
      ∃ i root, F.roots.get? i = some root ∧ (findInTree t root).isSome = true := by
    intro t ht
    obtain ⟨r, hr, hs⟩ := hfind t ht
    obtain ⟨n, hn⟩ := List.mem_iff_get?.mp hr
    exact ⟨n, r, hn, hs⟩
  obtain ⟨pf, hpf⟩ : ∃ pf, F.prove D = .ok pf := by
    cases hp : F.prove D with
    | ok a => exact ⟨a, rfl⟩
    | error e => rw [hp] at hprove; cases hprove
  have hingest :
      ingest_proof (from_roots (F.roots.map PNode.data) F.leaves) F D =
        .ok ⟨F.roots.map (pruneTo D), F.leaves,
             D.foldl (fun m t => mapInsert t m) []⟩ := by
    rw [ingest_proof, if_pos]
    constructor
    · simp [from_roots, List.map_map, Function.comp, PNode.data]
    · rfl
  have hdata0 : (F.roots.map (pruneTo D)).map PNode.data = F.roots.map PNode.data := by
    rw [List.map_map]
    refine List.map_congr_left ?_
    intro r _
    exact pruneTo_data D r
  have hti0 : List.Forall₂ TreeInv (F.roots.map (pruneTo D)) F.roots := by
    rw [List.forall₂_map_left_iff]
    rw [List.forall₂_same]
    intro r hr
    refine ⟨pruneTo_rootOk D r (hroot r hr), hnd r hr, ?_⟩
    cases r with
    | branch0 h =>
      have he : h = .empty := is_empty_eq (by simpa [rootOk] using hroot _ hr)
      subst he
      exact Or.inr ⟨rfl, rfl⟩
    | leaf h => exact Or.inl (by simpa [rootOk] using hroot _ hr)
    | branch h l rr => exact Or.inl (by simpa [rootOk] using hroot _ hr)
    | branchL h l => exact Or.inl (by simpa [rootOk] using hroot _ hr)
    | branchR h rr => exact Or.inl (by simpa [rootOk] using hroot _ hr)
  have hpar0 : ∀ t ∈ D,
      List.Forall₂ (fun a b => findInTree t a = findInTree t b)
        (F.roots.map (pruneTo D)) F.roots := by
    intro t ht
    rw [List.forall₂_map_left_iff, List.forall₂_same]
    intro r _
    exact findInTree_pruneTo D t ((mapContains_iff_mem D t).mpr ht) r
  have hcP0 : ∀ t ∈ D,
      mapContains (D.foldl (fun m t => mapInsert t m) []) t = true := by
    intro t ht
    exact mapContains_foldl_mapInsert D [] t (Or.inl ht)
  obtain ⟨P2, F2, hP2, hF2, hdata2, hleaves2⟩ :=
    modify_parity ⟨F.roots.map (pruneTo D), F.leaves,
        D.foldl (fun m t => mapInsert t m) []⟩ F A D
      rfl hti0 hD hcP0 hmapF hpar0 hfind2
  refine ⟨⟨F.roots.map (pruneTo D), F.leaves, D.foldl (fun m t => mapInsert t m) []⟩,
    P2, F2, ?_, hdata0, rfl, hP2, hF2, hdata2, hleaves2, ?_⟩
  · rw [forest_to_pollard, hdes]
    dsimp only
    rw [hpf]
    dsimp only
    rw [hingest]
  · rw [pollard_after_block, hdes]
    dsimp only
    rw [hpf]
    dsimp only
    rw [hingest]
    dsimp only
    rw [hP2]
    dsimp only
    rw [hF2]
    dsimp only
    rw [if_pos hdata2]

theorem c1_witness :
    ∃ P P2 F2,
      forest_to_pollard (Pollard.serialize pollard4)
        [.value (List.replicate 32 2)] = .ok P ∧
      P.roots.map PNode.data = pollard4.roots.map PNode.data ∧
      P.leaves = pollard4.leaves ∧
      P.modify [.value (List.replicate 32 9)] [.value (List.replicate 32 2)] = .ok P2 ∧
      pollard4.modify [.value (List.replicate 32 9)]
        [.value (List.replicate 32 2)] = .ok F2 ∧
      P2.roots.map PNode.data = F2.roots.map PNode.data ∧
      P2.leaves = F2.leaves ∧
      pollard_after_block (Pollard.serialize pollard4) [.value (List.replicate 32 2)]
        [.value (List.replicate 32 9)] = .ok P2 :=
  c1_pollard_forest_parity (Pollard.serialize pollard4) pollard4
    [.value (List.replicate 32 9)] [.value (List.replicate 32 2)]
    (by decide) (by decide) (by decide) (by decide) (by decide) (by decide) (by decide)
